import Mathlib

/-!
Verification of the webmerge line-diff engine (src/src/App.jsx).

The engine is embedded shallowly: texts are modelled by their lists of lines
(the source splits every input on the newline character before any other
processing, and joins on it afterwards), JavaScript strings by `String`,
`null` fields by `Option`, and the imperative loops by structural recursion.
Loops whose JavaScript termination measure is not a structural argument are
given an explicit fuel argument that bounds the iteration count; each such
definition comes with a fuel-irrelevance lemma showing the fuel never runs
out at the instantiated bound, so the embedded function satisfies exactly
the source recurrence.
-/

namespace Webmerge

/-! ### JavaScript character and string primitives -/

/-- Characters matched by the JavaScript regular-expression class `\s`
(whitespace, used by `replace(/\s+/g, ' ')` and by `trim()`). -/
def jsIsSpace (c : Char) : Bool :=
  decide (c = ' ' ∨ c = '\t' ∨ c = '\n' ∨ c.toNat = 0xB ∨ c.toNat = 0xC ∨ c = '\r' ∨
    c.toNat = 0xA0 ∨ c.toNat = 0x1680 ∨ (0x2000 ≤ c.toNat ∧ c.toNat ≤ 0x200A) ∨
    c.toNat = 0x2028 ∨ c.toNat = 0x2029 ∨ c.toNat = 0x202F ∨ c.toNat = 0x205F ∨
    c.toNat = 0x3000 ∨ c.toNat = 0xFEFF)

/-- Embedding of `line.replace(/\s+/g, ' ')`: every maximal run of whitespace
characters becomes a single space. -/
def collapseSpaceRuns (cs : List Char) : List Char :=
  cs.foldr (fun c acc =>
    if jsIsSpace c then
      match acc with
      | ' ' :: _ => acc
      | _ => ' ' :: acc
    else c :: acc) []

/-- Embedding of JavaScript `String.prototype.trim` on the character list. -/
def jsTrimChars (cs : List Char) : List Char :=
  ((cs.dropWhile jsIsSpace).reverse.dropWhile jsIsSpace).reverse

/-- Embedding of JavaScript `String.prototype.trim`. -/
def jsTrim (s : String) : String := String.mk (jsTrimChars s.data)

/-- Embedding of `String.prototype.toLowerCase`. JavaScript lowercases by the
full Unicode tables; the engine only ever compares the results for equality,
and no claim depends on non-ASCII case folding, so the ASCII lowering of
`Char.toLower` stands in for it. -/
def jsToLower (s : String) : String := String.mk (s.data.map Char.toLower)

/-- Embedding of JavaScript `text.split('\n')`: cut the character list at
every newline, keeping empty segments (so the empty text yields one empty
line, exactly as in JavaScript). -/
def splitCharLines (cs : List Char) : List (List Char) :=
  cs.foldr (fun c acc =>
    if c = '\n' then [] :: acc
    else
      match acc with
      | h :: t => (c :: h) :: t
      | [] => [[c]]) [[]]

/-- Embedding of `text.split('\n')` on `String`. -/
def splitLines (s : String) : List String := (splitCharLines s.data).map String.mk

/-! ### Comparison options and line preprocessing (App.jsx lines 41-80) -/

/-- The `options` record of `computeLineDiff`; in the source an absent field
is `undefined`, which every test reads as false, so fields default to
`false`. -/
structure ComparisonOptions where
  ignoreWhitespace : Bool := false
  ignoreCase : Bool := false
  ignoreBlankLines : Bool := false
  deriving DecidableEq, Repr

/-- The `processLine` closure (App.jsx lines 44-53): whitespace collapsing and
trimming first, then lowercasing, each gated by its option. -/
def processLine (o : ComparisonOptions) (line : String) : String :=
  let p1 := if o.ignoreWhitespace then String.mk (jsTrimChars (collapseSpaceRuns line.data)) else line
  if o.ignoreCase then jsToLower p1 else p1

/-- The `leftFiltered`/`rightFiltered` computation (App.jsx lines 55-77): with
`ignoreBlankLines` the lines whose trim is empty are dropped, otherwise the
list is kept whole.  JavaScript `if (line.trim())` keeps exactly the lines
with a nonempty trim. -/
def filteredLines (o : ComparisonOptions) (lines : List String) : List String :=
  if o.ignoreBlankLines then lines.filter (fun l => jsTrim l != "") else lines

/-- The `leftMapping`/`rightMapping` computation (same loop): for every kept
line its 0-based index in the original list; without `ignoreBlankLines` it is
the identity mapping. -/
def lineMapping (o : ComparisonOptions) (lines : List String) : List Nat :=
  if o.ignoreBlankLines then
    (lines.enum.filter (fun p => jsTrim p.2 != "")).map Prod.fst
  else List.range lines.length

/-! ### The sequence matcher `computeLCS` (App.jsx lines 9-39)

The dynamic-programming table satisfies `dp[i][j] = dp[i-1][j-1] + 1` when
`left[i-1] === right[j-1]` and `dp[i][j] = max(dp[i-1][j], dp[i][j-1])`
otherwise, with the zero row and column all zero.  `dpVal` is that recurrence;
the fuel argument of `dpValF` (always at least `i + j`, which the recursion
strictly decreases) makes the recursion structural. -/

def dpValF (left right : List String) : Nat → Nat → Nat → Nat
  | _, 0, _ => 0
  | _, _+1, 0 => 0
  | 0, _+1, _+1 => 0
  | f+1, i+1, j+1 =>
    if left.getD i "" = right.getD j "" then dpValF left right f i j + 1
    else max (dpValF left right f i (j+1)) (dpValF left right f (i+1) j)

/-- The value `dp[i][j]` of the table built by `computeLCS`. -/
def dpVal (left right : List String) (i j : Nat) : Nat := dpValF left right (i + j) i j

/-- One matched index pair of the LCS, as pushed by `lcs.unshift({...})`. -/
structure LcsMatch where
  leftIndex : Nat
  rightIndex : Nat
  value : String
  deriving DecidableEq, Repr

/-- The backtracking loop of `computeLCS` (App.jsx lines 24-36): from `(i, j)`
step diagonally when the keys are equal, otherwise to `(i-1, j)` when
`dp[i-1][j] > dp[i][j-1]` and to `(i, j-1)` otherwise; stop when either index
is zero.  `unshift` builds the result front-first, so the match found at
`(i, j)` is the last element of the recursive result. -/
def backtrackF (left right : List String) : Nat → Nat → Nat → List LcsMatch
  | _, 0, _ => []
  | _, _+1, 0 => []
  | 0, _+1, _+1 => []
  | f+1, i+1, j+1 =>
    if left.getD i "" = right.getD j "" then
      backtrackF left right f i j ++ [{ leftIndex := i, rightIndex := j, value := left.getD i "" }]
    else if dpVal left right i (j+1) > dpVal left right (i+1) j then
      backtrackF left right f i (j+1)
    else backtrackF left right f (i+1) j

/-- The backtracking state `(i, j)` with its canonical fuel. -/
def backtrack (left right : List String) (i j : Nat) : List LcsMatch :=
  backtrackF left right (i + j) i j

/-- `computeLCS` (App.jsx lines 9-39). -/
def computeLCS (left right : List String) : List LcsMatch :=
  backtrackF left right (left.length + right.length) left.length right.length

/-! ### Diff entries and the emission loop of `computeLineDiff` (App.jsx lines 83-147) -/

/-- One diff entry, the record pushed by `computeLineDiff`; `null` fields are
`none`. -/
structure DiffEntry where
  type : String
  leftLine : Option String
  leftLineNum : Option Nat
  rightLine : Option String
  rightLineNum : Option Nat
  deriving DecidableEq, Repr

/-- The `deleted` record pushed at filtered index `idx` (App.jsx lines 93-99). -/
def deletedEntry (lf : List String) (lm : List Nat) (idx : Nat) : DiffEntry :=
  { type := "deleted", leftLine := some (lf.getD idx ""), leftLineNum := some (lm.getD idx 0 + 1),
    rightLine := none, rightLineNum := none }

/-- The `added` record pushed at filtered index `idx` (App.jsx lines 104-110). -/
def addedEntry (rf : List String) (rm : List Nat) (idx : Nat) : DiffEntry :=
  { type := "added", leftLine := none, leftLineNum := none,
    rightLine := some (rf.getD idx ""), rightLineNum := some (rm.getD idx 0 + 1) }

/-- The `unchanged` record pushed at a match (App.jsx lines 114-120). -/
def unchangedEntry (lf rf : List String) (lm rm : List Nat) (li ri : Nat) : DiffEntry :=
  { type := "unchanged", leftLine := some (lf.getD li ""), leftLineNum := some (lm.getD li 0 + 1),
    rightLine := some (rf.getD ri ""), rightLineNum := some (rm.getD ri 0 + 1) }

/-- The emission loop of `computeLineDiff` (App.jsx lines 88-147), recursing
on the LCS match list: each iteration with a match left emits the pending
deletions up to the match's left index, the pending additions up to its right
index, then the unchanged entry; once the ms are exhausted the remaining
deletions and then the remaining additions are emitted.  (The loop guard
`leftIdx < leftFiltered.length || rightIdx < rightFiltered.length` is always
true while a match remains, because match indices lie between the cursors and
the lengths.) -/
def buildRaw (lf rf : List String) (lm rm : List Nat) :
    Nat → Nat → List LcsMatch → List DiffEntry
  | leftIdx, rightIdx, [] =>
    ((List.range' leftIdx (lf.length - leftIdx)).map (deletedEntry lf lm)) ++
      ((List.range' rightIdx (rf.length - rightIdx)).map (addedEntry rf rm))
  | leftIdx, rightIdx, m :: rest =>
    ((List.range' leftIdx (m.leftIndex - leftIdx)).map (deletedEntry lf lm)) ++
      ((List.range' rightIdx (m.rightIndex - rightIdx)).map (addedEntry rf rm)) ++
      (unchangedEntry lf rf lm rm m.leftIndex m.rightIndex ::
        buildRaw lf rf lm rm (m.leftIndex + 1) (m.rightIndex + 1) rest)

/-- The `result` list of `computeLineDiff` before merging (App.jsx lines
41-147): filter, preprocess, run the matcher on the preprocessed keys, then
emit. -/
def rawDiff (L R : List String) (o : ComparisonOptions) : List DiffEntry :=
  buildRaw (filteredLines o L) (filteredLines o R) (lineMapping o L) (lineMapping o R) 0 0
    (computeLCS ((filteredLines o L).map (processLine o)) ((filteredLines o R).map (processLine o)))

/-! ### The block merger (App.jsx lines 149-200) -/

def isDeletedE (e : DiffEntry) : Bool := e.type == "deleted"

def isAddedE (e : DiffEntry) : Bool := e.type == "added"

/-- The `modified` record merging the k-th delete with the k-th add (App.jsx
lines 174-180). -/
def modifiedOf (d a : DiffEntry) : DiffEntry :=
  { type := "modified", leftLine := d.leftLine, leftLineNum := d.leftLineNum,
    rightLine := a.rightLine, rightLineNum := a.rightLineNum }

/-- The pairing of one delete run with the following add run (App.jsx lines
169-190): position-wise `modified` pairs up to the shorter length, then the
excess of the longer run; when no adds follow, the deletes are pushed as
they are (in the source the merge branch is guarded by both runs being
nonempty, and the delete run always is). -/
def mergeRuns (deletes adds : List DiffEntry) : List DiffEntry :=
  if deletes.length > 0 ∧ adds.length > 0 then
    (List.zipWith modifiedOf deletes adds) ++ deletes.drop adds.length ++ adds.drop deletes.length
  else deletes

/-- The merge scan (App.jsx lines 151-200): on a delete collect the maximal
delete run and then the maximal add run that follows and merge them;
otherwise pass the entry through.  Fuel bounds the iteration count (each
iteration consumes at least the first entry). -/
def mergeDiffF : Nat → List DiffEntry → List DiffEntry
  | _, [] => []
  | 0, l => l
  | f+1, e :: rest =>
    if isDeletedE e then
      mergeRuns (e :: rest.takeWhile isDeletedE) ((rest.dropWhile isDeletedE).takeWhile isAddedE) ++
        mergeDiffF f ((rest.dropWhile isDeletedE).dropWhile isAddedE)
    else e :: mergeDiffF f rest

/-- The merged list (App.jsx lines 151-202). -/
def mergeDiff (l : List DiffEntry) : List DiffEntry := mergeDiffF l.length l

/-- `computeLineDiff` (App.jsx lines 41-203): the raw emission followed by
the delete/add-run merge. -/
def computeLineDiff (L R : List String) (o : ComparisonOptions) : List DiffEntry :=
  mergeDiff (rawDiff L R o)

/-! ### The alignment calculator `computeViewZones` (App.jsx lines 244-279) -/

/-- One view zone (placeholder gap). -/
structure ViewZone where
  afterLineNumber : Nat
  heightInLines : Nat
  deriving DecidableEq, Repr

/-- The loop state of `computeViewZones`: zones pushed so far, the last real
line number seen on the target side, and the pending placeholder count. -/
structure ZoneState where
  zones : List ViewZone
  currentLineNum : Nat
  pendingPlaceholders : Nat
  deriving DecidableEq, Repr

/-- The body of the `forEach` in `computeViewZones` (App.jsx lines 249-268). -/
def zoneStep (side : String) (st : ZoneState) (e : DiffEntry) : ZoneState :=
  let thisNum := if side == "left" then e.leftLineNum else e.rightLineNum
  let otherNum := if side == "left" then e.rightLineNum else e.leftLineNum
  if thisNum.isSome then
    { zones :=
        if st.pendingPlaceholders > 0 then
          st.zones ++ [{ afterLineNumber := st.currentLineNum,
                         heightInLines := st.pendingPlaceholders }]
        else st.zones,
      currentLineNum := thisNum.getD 0,
      pendingPlaceholders := 0 }
  else if otherNum.isSome then
    { st with pendingPlaceholders := st.pendingPlaceholders + 1 }
  else st

/-- The final flush of `computeViewZones` (App.jsx lines 271-276). -/
def flushZones (st : ZoneState) : List ViewZone :=
  if st.pendingPlaceholders > 0 then
    st.zones ++ [{ afterLineNumber := st.currentLineNum, heightInLines := st.pendingPlaceholders }]
  else st.zones

/-- `computeViewZones` (App.jsx lines 244-279): fold the step over the diff,
then flush any remaining pending placeholders. -/
def computeViewZones (diff : List DiffEntry) (side : String) : List ViewZone :=
  flushZones (diff.foldl (zoneStep side)
    { zones := [], currentLineNum := 0, pendingPlaceholders := 0 })

/-- Total height of a zone list. -/
def zoneHeightsSum (zs : List ViewZone) : Nat := (zs.map (fun z => z.heightInLines)).sum

/-- An entry lacking a line number on `side` while having one on the other
side (the entries a placeholder row stands for). -/
def lacksOnSide (side : String) (e : DiffEntry) : Bool :=
  (if side == "left" then e.leftLineNum else e.rightLineNum).isNone &&
    (if side == "left" then e.rightLineNum else e.leftLineNum).isSome

/-- An entry whose type is one of the four the engine produces. -/
def validType (e : DiffEntry) : Bool :=
  e.type == "unchanged" || e.type == "deleted" || e.type == "added" || e.type == "modified"

/-! ### The patch serializer `generateUnifiedPatch` (App.jsx lines 369-432) -/

/-- Decimal digit list of a natural number, most significant first; the fuel
`n + 1` bounds the digit count.  Embeds the number-to-string conversion done
by the template literal in the `@@` range line. -/
def natDigitsAux : Nat → Nat → List Char
  | 0, _ => []
  | f+1, n => if n < 10 then [Nat.digitChar n] else natDigitsAux f (n / 10) ++ [Nat.digitChar (n % 10)]

/-- Decimal representation of a natural number. -/
def natRepr (n : Nat) : String := String.mk (natDigitsAux (n + 1) n)

/-- The mutable state of the `generateUnifiedPatch` loop (App.jsx lines
378-384). -/
structure PatchState where
  leftLineNum : Nat
  rightLineNum : Nat
  currentHunk : List String
  hunkLeftStart : Nat
  hunkRightStart : Nat
  hunkLeftCount : Nat
  hunkRightCount : Nat
  deriving DecidableEq, Repr

/-- The body of the `for` loop of `generateUnifiedPatch` (App.jsx lines
394-428).  `entry.leftLineNum || leftLineNum` falls back to the running
counter exactly when the field is `null` (line numbers are 1-based so never
the falsy 0), hence `Option.getD`. -/
def patchStep (st : PatchState) (e : DiffEntry) : PatchState :=
  if e.type == "unchanged" then
    let st1 :=
      if st.currentHunk.length > 0 then
        { st with currentHunk := st.currentHunk ++ [" " ++ e.leftLine.getD ""],
                  hunkLeftCount := st.hunkLeftCount + 1,
                  hunkRightCount := st.hunkRightCount + 1 }
      else st
    { st1 with leftLineNum := st1.leftLineNum + 1, rightLineNum := st1.rightLineNum + 1 }
  else
    let st1 :=
      if st.currentHunk.length = 0 then
        { st with hunkLeftStart := e.leftLineNum.getD st.leftLineNum,
                  hunkRightStart := e.rightLineNum.getD st.rightLineNum,
                  hunkLeftCount := 0, hunkRightCount := 0 }
      else st
    if e.type == "deleted" then
      { st1 with currentHunk := st1.currentHunk ++ ["-" ++ e.leftLine.getD ""],
                 hunkLeftCount := st1.hunkLeftCount + 1,
                 leftLineNum := st1.leftLineNum + 1 }
    else if e.type == "added" then
      { st1 with currentHunk := st1.currentHunk ++ ["+" ++ e.rightLine.getD ""],
                 hunkRightCount := st1.hunkRightCount + 1,
                 rightLineNum := st1.rightLineNum + 1 }
    else if e.type == "modified" then
      { st1 with currentHunk := st1.currentHunk ++
                   ["-" ++ e.leftLine.getD "", "+" ++ e.rightLine.getD ""],
                 hunkLeftCount := st1.hunkLeftCount + 1,
                 hunkRightCount := st1.hunkRightCount + 1,
                 leftLineNum := st1.leftLineNum + 1,
                 rightLineNum := st1.rightLineNum + 1 }
    else st1

/-- The `@@` range line pushed by `flushHunk` (App.jsx line 388). -/
def rangeLine (st : PatchState) : String :=
  "@@ -" ++ natRepr st.hunkLeftStart ++ "," ++ natRepr st.hunkLeftCount ++
    " +" ++ natRepr st.hunkRightStart ++ "," ++ natRepr st.hunkRightCount ++ " @@"

/-- `generateUnifiedPatch` (App.jsx lines 369-432) at the line level: the
source splits both texts on newlines first and joins the output lines on
newlines last, so the function is embedded between those two conversions.
`flushHunk` is invoked exactly once, after the loop (line 430). -/
def generateUnifiedPatchLines (L R : List String) (leftFileName rightFileName : String) :
    List String :=
  let st := (computeLineDiff L R {}).foldl patchStep
    { leftLineNum := 1, rightLineNum := 1, currentHunk := [],
      hunkLeftStart := 0, hunkRightStart := 0, hunkLeftCount := 0, hunkRightCount := 0 }
  ("--- " ++ leftFileName) :: ("+++ " ++ rightFileName) ::
    (if st.currentHunk.length > 0 then rangeLine st :: st.currentHunk else [])

/-! ### Specification-side definitions

These definitions are written from the specification's words (not from the
source); the theorems below compare the source embeddings against them. -/

/-- Surviving 1-based line numbers of a side: the original positions of the
lines not excluded by `ignoreBlankLines`. -/
def survivingNums (o : ComparisonOptions) (lines : List String) : List Nat :=
  (lineMapping o lines).map (· + 1)

/-- The backtracking policy as the specification words it: from `(m, n)` step
diagonally on equal keys; otherwise compare the two neighboring table values
and move toward the larger; on an exact tie decrement the right-sequence
index. -/
def lcsBacktrackSpecF (left right : List String) : Nat → Nat → Nat → List LcsMatch
  | _, 0, _ => []
  | _, _+1, 0 => []
  | 0, _+1, _+1 => []
  | f+1, i+1, j+1 =>
    if left.getD i "" = right.getD j "" then
      lcsBacktrackSpecF left right f i j ++
        [{ leftIndex := i, rightIndex := j, value := left.getD i "" }]
    else if dpVal left right i (j+1) = dpVal left right (i+1) j then
      lcsBacktrackSpecF left right f (i+1) j
    else if dpVal left right i (j+1) > dpVal left right (i+1) j then
      lcsBacktrackSpecF left right f i (j+1)
    else lcsBacktrackSpecF left right f (i+1) j

/-- The spec-worded backtracking from `(m, n)`. -/
def lcsBacktrackSpec (left right : List String) : List LcsMatch :=
  lcsBacktrackSpecF left right (left.length + right.length) left.length right.length

/-- Patch body lines contributed by one diff entry: a space-prefixed context
line for unchanged, `-`/`+` for deleted/added, and both (the `-` line first)
for modified. -/
def entryPatchLines (e : DiffEntry) : List String :=
  if e.type == "unchanged" then [" " ++ e.leftLine.getD ""]
  else if e.type == "deleted" then ["-" ++ e.leftLine.getD ""]
  else if e.type == "added" then ["+" ++ e.rightLine.getD ""]
  else if e.type == "modified" then ["-" ++ e.leftLine.getD "", "+" ++ e.rightLine.getD ""]
  else []

/-- Left-side line count of a hunk body: entries contributing a `-` or
context line. -/
def countsLeft (l : List DiffEntry) : Nat :=
  l.countP (fun e => e.type == "unchanged" || e.type == "deleted" || e.type == "modified")

/-- Right-side line count of a hunk body: entries contributing a `+` or
context line. -/
def countsRight (l : List DiffEntry) : Nat :=
  l.countP (fun e => e.type == "unchanged" || e.type == "added" || e.type == "modified")

/-- The hunk portion the merged engine actually emits (the amended form of
claim C6): nothing when the diff has no changed entry; otherwise a single
hunk opened at the first changed entry and extending to the end of the diff,
every later unchanged entry included as a context line, the `@@` line taking
each side's start from the first changed entry's line number on that side
(falling back to one past the unchanged prefix length when that side is
absent) and its count from the whole hunk body. -/
def patchTailSpec (d : List DiffEntry) : List String :=
  let pre := d.takeWhile (fun e => e.type == "unchanged")
  let suf := d.dropWhile (fun e => e.type == "unchanged")
  match suf with
  | [] => []
  | e :: _ =>
    ("@@ -" ++ natRepr (e.leftLineNum.getD (pre.length + 1)) ++ "," ++
        natRepr (countsLeft suf) ++ " +" ++
        natRepr (e.rightLineNum.getD (pre.length + 1)) ++ "," ++
        natRepr (countsRight suf) ++ " @@") ::
      suf.flatMap entryPatchLines

/-! ### A unified-patch applier

Modelled from the spec: the repository serializes patches but contains no
applier, and claim C7 fixes the application semantics as the standard
unified-diff one — at each hunk's left start line the `-` and space lines
must match the left text and are replaced by the `+` and space lines.  The
definitions below implement exactly that reading on the line level. -/

/-- Does a patch line open a hunk (`@@ -` range line)?  Body lines always
start with a space, `-` or `+`, so the test is unambiguous. -/
def isHunkHeaderLine (s : String) : Bool :=
  match s.data with
  | '@' :: '@' :: ' ' :: '-' :: _ => true
  | _ => false

def isDigitChar (c : Char) : Bool := decide (48 ≤ c.toNat ∧ c.toNat ≤ 57)

/-- Numeric value of a nonempty digit string, most significant digit first. -/
def parseNatChars (cs : List Char) : Option Nat :=
  if cs ≠ [] ∧ cs.all isDigitChar then
    some (cs.foldl (fun a c => a * 10 + (c.toNat - 48)) 0)
  else none

/-- The left start line parsed out of an `@@ -L,N +L,N @@` range line: the
digit run following `@@ -`. -/
def parseHunkStart (s : String) : Option Nat :=
  parseNatChars ((s.data.drop 4).takeWhile isDigitChar)

/-- Parse the hunk list of a unified patch: each hunk is a range line
followed by its body lines, up to the next range line.  Fuel bounds the
number of hunks (each consumes at least its range line). -/
def parseHunksF : Nat → List String → Option (List (Nat × List String))
  | _, [] => some []
  | 0, _ => none
  | f+1, l :: rest =>
    if isHunkHeaderLine l then
      match parseHunkStart l with
      | some s =>
        match parseHunksF f (rest.dropWhile (fun x => !isHunkHeaderLine x)) with
        | some hs => some ((s, rest.takeWhile (fun x => !isHunkHeaderLine x)) :: hs)
        | none => none
      | none => none
    else none

def parseHunks (ls : List String) : Option (List (Nat × List String)) :=
  parseHunksF ls.length ls

/-- Process one hunk body against the remaining left lines: a space line must
match the next left line and is copied to the output, a `-` line must match
and is dropped, a `+` line is emitted.  Returns the unconsumed left lines and
the extended output. -/
def processBody : List String → List String → List String → Option (List String × List String)
  | [], rem, out => some (rem, out)
  | b :: rest, rem, out =>
    match b.data with
    | ' ' :: cs =>
      match rem with
      | r :: rem2 => if r.data = cs then processBody rest rem2 (out ++ [r]) else none
      | [] => none
    | '-' :: cs =>
      match rem with
      | r :: rem2 => if r.data = cs then processBody rest rem2 out else none
      | [] => none
    | '+' :: cs => processBody rest rem (out ++ [String.mk cs])
    | _ => none

/-- Apply the hunks in order: copy the left lines up to each hunk's start,
process its body, and copy whatever is left after the last hunk. -/
def applyHunks : List (Nat × List String) → List String → Nat → List String → Option (List String)
  | [], left, pos, out => some (out ++ left.drop pos)
  | (start, body) :: hs, left, pos, out =>
    if pos + 1 ≤ start ∧ start ≤ left.length + 1 then
      match processBody body (left.drop (start - 1)) (out ++ (left.drop pos).take (start - 1 - pos)) with
      | some (rem, out2) => applyHunks hs left (left.length - rem.length) out2
      | none => none
    else none

/-- Apply a unified patch (line level): skip the two header lines, parse the
hunks and apply them to the left text's lines. -/
def applyPatchLines (patch : List String) (left : List String) : Option (List String) :=
  match patch with
  | _ :: _ :: rest =>
    match parseHunks rest with
    | some hs => applyHunks hs left 0 []
    | none => none
  | _ => none

/-- Shape invariant of §3 of the spec: unchanged and modified entries carry
both sides, deleted and added exactly one. -/
def WFEntry (e : DiffEntry) : Prop :=
  (e.type = "unchanged" ∧ e.leftLine.isSome ∧ e.leftLineNum.isSome ∧
    e.rightLine.isSome ∧ e.rightLineNum.isSome) ∨
  (e.type = "deleted" ∧ e.leftLine.isSome ∧ e.leftLineNum.isSome ∧
    e.rightLine = none ∧ e.rightLineNum = none) ∨
  (e.type = "added" ∧ e.leftLine = none ∧ e.leftLineNum = none ∧
    e.rightLine.isSome ∧ e.rightLineNum.isSome) ∨
  (e.type = "modified" ∧ e.leftLine.isSome ∧ e.leftLineNum.isSome ∧
    e.rightLine.isSome ∧ e.rightLineNum.isSome)

/-! #### Fuel irrelevance and the source recurrences -/

theorem dpValF_congr (left right : List String) :
    ∀ f g i j, i + j ≤ f → i + j ≤ g →
      dpValF left right f i j = dpValF left right g i j := by
  intro f
  induction f with
  | zero =>
    intro g i j hf _
    match i, j with
    | 0, _ => cases g <;> rfl
    | i+1, 0 => cases g <;> rfl
    | i+1, j+1 => omega
  | succ f ih =>
    intro g i j hf hg
    match i, j with
    | 0, _ => cases g <;> rfl
    | i+1, 0 => cases g <;> rfl
    | i+1, j+1 =>
      match g, hg with
      | g+1, hg =>
        show dpValF left right (f+1) (i+1) (j+1) = dpValF left right (g+1) (i+1) (j+1)
        simp only [dpValF]
        rw [ih g i j (by omega) (by omega),
          ih g i (j+1) (by omega) (by omega),
          ih g (i+1) j (by omega) (by omega)]

theorem dpVal_zero_left (left right : List String) (j : Nat) :
    dpVal left right 0 j = 0 := by
  show dpValF left right (0 + j) 0 j = 0
  rw [Nat.zero_add]
  cases j <;> rfl

theorem dpVal_zero_right (left right : List String) (i : Nat) :
    dpVal left right i 0 = 0 := by
  cases i <;> rfl

theorem dpVal_succ_succ (left right : List String) (i j : Nat) :
    dpVal left right (i+1) (j+1) =
      if left.getD i "" = right.getD j "" then dpVal left right i j + 1
      else max (dpVal left right i (j+1)) (dpVal left right (i+1) j) := by
  show dpValF left right (i+1+(j+1)) (i+1) (j+1) = _
  have h : i+1+(j+1) = (i+j+1)+1 := by omega
  rw [h]
  simp only [dpValF]
  rw [dpValF_congr left right (i+j+1) (i+j) i j (by omega) (by omega),
    dpValF_congr left right (i+j+1) (i+(j+1)) i (j+1) (by omega) (by omega),
    dpValF_congr left right (i+j+1) ((i+1)+j) (i+1) j (by omega) (by omega)]
  rfl

theorem backtrackF_congr (left right : List String) :
    ∀ f g i j, i + j ≤ f → i + j ≤ g →
      backtrackF left right f i j = backtrackF left right g i j := by
  intro f
  induction f with
  | zero =>
    intro g i j hf _
    match i, j with
    | 0, _ => cases g <;> rfl
    | i+1, 0 => cases g <;> rfl
    | i+1, j+1 => omega
  | succ f ih =>
    intro g i j hf hg
    match i, j with
    | 0, _ => cases g <;> rfl
    | i+1, 0 => cases g <;> rfl
    | i+1, j+1 =>
      match g, hg with
      | g+1, hg =>
        show backtrackF left right (f+1) (i+1) (j+1) = backtrackF left right (g+1) (i+1) (j+1)
        simp only [backtrackF]
        rw [ih g i j (by omega) (by omega),
          ih g i (j+1) (by omega) (by omega),
          ih g (i+1) j (by omega) (by omega)]

theorem backtrack_zero_left (left right : List String) (j : Nat) :
    backtrack left right 0 j = [] := by
  show backtrackF left right (0 + j) 0 j = []
  rw [Nat.zero_add]
  cases j <;> rfl

theorem backtrack_zero_right (left right : List String) (i : Nat) :
    backtrack left right i 0 = [] := by
  cases i <;> rfl

theorem backtrack_succ_succ (left right : List String) (i j : Nat) :
    backtrack left right (i+1) (j+1) =
      if left.getD i "" = right.getD j "" then
        backtrack left right i j ++ [{ leftIndex := i, rightIndex := j, value := left.getD i "" }]
      else if dpVal left right i (j+1) > dpVal left right (i+1) j then
        backtrack left right i (j+1)
      else backtrack left right (i+1) j := by
  show backtrackF left right (i+1+(j+1)) (i+1) (j+1) = _
  have h : i+1+(j+1) = (i+j+1)+1 := by omega
  rw [h]
  simp only [backtrackF]
  rw [backtrackF_congr left right (i+j+1) (i+j) i j (by omega) (by omega),
    backtrackF_congr left right (i+j+1) (i+(j+1)) i (j+1) (by omega) (by omega),
    backtrackF_congr left right (i+j+1) ((i+1)+j) (i+1) j (by omega) (by omega)]
  rfl

theorem computeLCS_eq_backtrack (left right : List String) :
    computeLCS left right = backtrack left right left.length right.length := rfl

/-! #### Generic list helpers -/

theorem dropWhile_length_le {α : Type} (p : α → Bool) :
    ∀ l : List α, (l.dropWhile p).length ≤ l.length := by
  intro l
  induction l with
  | nil => simp
  | cons a t ih =>
    rw [List.dropWhile_cons]
    by_cases h : p a = true
    · simp only [h, if_true]
      exact Nat.le_trans ih (Nat.le_succ _)
    · simp [h]

theorem filterMap_of_none {α β : Type} {f : α → Option β} :
    ∀ {l : List α}, (∀ x ∈ l, f x = none) → l.filterMap f = [] := by
  intro l
  induction l with
  | nil => intro _; rfl
  | cons a t ih =>
    intro h
    rw [List.filterMap_cons, h a (by simp)]
    exact ih (fun x hx => h x (by simp [hx]))

theorem filterMap_of_some {α β : Type} {f : α → Option β} {g : α → β} :
    ∀ {l : List α}, (∀ x ∈ l, f x = some (g x)) → l.filterMap f = l.map g := by
  intro l
  induction l with
  | nil => intro _; rfl
  | cons a t ih =>
    intro h
    rw [List.filterMap_cons, h a (by simp), List.map_cons]
    rw [ih (fun x hx => h x (by simp [hx]))]

theorem length_filterMap_of_isSome {α β : Type} {f : α → Option β} :
    ∀ {l : List α}, (∀ x ∈ l, (f x).isSome) → (l.filterMap f).length = l.length := by
  intro l
  induction l with
  | nil => intro _; rfl
  | cons a t ih =>
    intro h
    have ha := h a (by simp)
    rcases Option.isSome_iff_exists.mp ha with ⟨b, hb⟩
    rw [List.filterMap_cons, hb]
    simp only [List.length_cons]
    rw [ih (fun x hx => h x (by simp [hx]))]

theorem map_getD_range {α β : Type} (g : α → β) (d : α) :
    ∀ l : List α, (List.range l.length).map (fun i => g (l.getD i d)) = l.map g := by
  intro l
  induction l with
  | nil => rfl
  | cons a t ih =>
    simp only [List.length_cons, List.range_succ_eq_map, List.map_cons, List.map_map]
    show g a :: List.map (fun i => g (t.getD i d)) (List.range t.length) = g a :: List.map g t
    rw [ih]

/-! #### Merge-phase recurrences -/

theorem mergeDiffF_congr :
    ∀ f g l, l.length ≤ f → l.length ≤ g → mergeDiffF f l = mergeDiffF g l := by
  intro f
  induction f with
  | zero =>
    intro g l hf _
    match l with
    | [] => cases g <;> rfl
    | e :: rest => simp at hf
  | succ f ih =>
    intro g l hf hg
    match l with
    | [] => cases g <;> rfl
    | e :: rest =>
      match g, hg with
      | g+1, hg =>
        show mergeDiffF (f+1) (e :: rest) = mergeDiffF (g+1) (e :: rest)
        simp only [mergeDiffF]
        have h1 : ((rest.dropWhile isDeletedE).dropWhile isAddedE).length ≤ rest.length :=
          Nat.le_trans (dropWhile_length_le _ _) (dropWhile_length_le _ _)
        rw [ih g ((rest.dropWhile isDeletedE).dropWhile isAddedE)
              (by simp at hf; omega) (by simp at hg; omega),
          ih g rest (by simp at hf; omega) (by simp at hg; omega)]

theorem mergeDiff_nil : mergeDiff [] = [] := rfl

theorem mergeDiff_cons (e : DiffEntry) (rest : List DiffEntry) :
    mergeDiff (e :: rest) =
      if isDeletedE e then
        mergeRuns (e :: rest.takeWhile isDeletedE) ((rest.dropWhile isDeletedE).takeWhile isAddedE) ++
          mergeDiff ((rest.dropWhile isDeletedE).dropWhile isAddedE)
      else e :: mergeDiff rest := by
  show mergeDiffF (rest.length + 1) (e :: rest) = _
  simp only [mergeDiffF]
  have h1 : ((rest.dropWhile isDeletedE).dropWhile isAddedE).length ≤ rest.length :=
    Nat.le_trans (dropWhile_length_le _ _) (dropWhile_length_le _ _)
  rw [mergeDiffF_congr rest.length ((rest.dropWhile isDeletedE).dropWhile isAddedE).length
      ((rest.dropWhile isDeletedE).dropWhile isAddedE) h1 (Nat.le_refl _)]
  rfl

theorem mergeDiff_of_no_deleted :
    ∀ {l : List DiffEntry}, (∀ e ∈ l, isDeletedE e = false) → mergeDiff l = l := by
  intro l
  induction l with
  | nil => intro _; rfl
  | cons e rest ih =>
    intro h
    rw [mergeDiff_cons]
    rw [if_neg (by simp [h e (by simp)])]
    rw [ih (fun x hx => h x (by simp [hx]))]

theorem mergeDiff_of_all_deleted :
    ∀ {l : List DiffEntry}, (∀ e ∈ l, isDeletedE e = true) → mergeDiff l = l := by
  intro l
  match l with
  | [] => intro _; rfl
  | e :: rest =>
    intro h
    rw [mergeDiff_cons, if_pos (h e (by simp))]
    have htw : rest.takeWhile isDeletedE = rest :=
      List.takeWhile_eq_self_iff.mpr (fun x hx => h x (by simp [hx]))
    have hdw : rest.dropWhile isDeletedE = [] :=
      List.dropWhile_eq_nil_iff.mpr (fun x hx => h x (by simp [hx]))
    rw [htw, hdw]
    show mergeRuns (e :: rest) [] ++ mergeDiff [] = e :: rest
    rw [mergeDiff_nil, List.append_nil]
    unfold mergeRuns
    rw [if_neg (by simp)]

/-! #### Properties of the dynamic-programming table -/

theorem dpVal_adj (left right : List String) :
    ∀ i j, dpVal left right i j ≤ dpVal left right (i+1) j ∧
      dpVal left right i j ≤ dpVal left right i (j+1) ∧
      dpVal left right (i+1) j ≤ dpVal left right i j + 1 ∧
      dpVal left right i (j+1) ≤ dpVal left right i j + 1 := by
  suffices H : ∀ k i j, i + j ≤ k →
      dpVal left right i j ≤ dpVal left right (i+1) j ∧
      dpVal left right i j ≤ dpVal left right i (j+1) ∧
      dpVal left right (i+1) j ≤ dpVal left right i j + 1 ∧
      dpVal left right i (j+1) ≤ dpVal left right i j + 1 by
    exact fun i j => H (i + j) i j (Nat.le_refl _)
  intro k
  induction k with
  | zero =>
    intro i j h
    have hi : i = 0 := by omega
    have hj : j = 0 := by omega
    subst hi; subst hj
    refine ⟨?_, ?_, ?_, ?_⟩ <;>
      simp [dpVal_zero_left, dpVal_zero_right]
  | succ k ih =>
    intro i j hij
    refine ⟨?_, ?_, ?_, ?_⟩
    · -- dp i j ≤ dp (i+1) j
      cases j with
      | zero => rw [dpVal_zero_right, dpVal_zero_right]
      | succ j' =>
        rw [dpVal_succ_succ]
        by_cases heq : left.getD i "" = right.getD j' ""
        · rw [if_pos heq]
          have := (ih i j' (by omega)).2.2.2
          omega
        · rw [if_neg heq]
          exact Nat.le_max_left _ _
    · -- dp i j ≤ dp i (j+1)
      cases i with
      | zero => rw [dpVal_zero_left, dpVal_zero_left]
      | succ i' =>
        rw [dpVal_succ_succ]
        by_cases heq : left.getD i' "" = right.getD j ""
        · rw [if_pos heq]
          have := (ih i' j (by omega)).2.2.1
          omega
        · rw [if_neg heq]
          exact Nat.le_max_right _ _
    · -- dp (i+1) j ≤ dp i j + 1
      cases j with
      | zero =>
        rw [dpVal_zero_right, dpVal_zero_right]
        omega
      | succ j' =>
        rw [dpVal_succ_succ]
        by_cases heq : left.getD i "" = right.getD j' ""
        · rw [if_pos heq]
          have := (ih i j' (by omega)).2.1
          omega
        · rw [if_neg heq]
          have h1 := (ih i j' (by omega)).2.2.1
          have h2 := (ih i j' (by omega)).2.1
          exact Nat.max_le.mpr ⟨by omega, by omega⟩
    · -- dp i (j+1) ≤ dp i j + 1
      cases i with
      | zero =>
        rw [dpVal_zero_left, dpVal_zero_left]
        omega
      | succ i' =>
        rw [dpVal_succ_succ]
        by_cases heq : left.getD i' "" = right.getD j ""
        · rw [if_pos heq]
          have := (ih i' j (by omega)).1
          omega
        · rw [if_neg heq]
          have h1 := (ih i' j (by omega)).2.2.2
          have h2 := (ih i' j (by omega)).1
          exact Nat.max_le.mpr ⟨by omega, by omega⟩

theorem sublist_concat_decomp {α : Type} {s t : List α} {x : α} (h : s.Sublist (t ++ [x])) :
    s.Sublist t ∨ ∃ s1, s = s1 ++ [x] ∧ s1.Sublist t := by
  rcases List.sublist_append_iff.mp h with ⟨l1, l2, rfl, h1, h2⟩
  rcases List.sublist_singleton.mp h2 with rfl | rfl
  · left
    simpa using h1
  · right
    exact ⟨l1, rfl, h1⟩

/-- The table value `dp[i][j]` bounds the length of every common subsequence
of the two prefixes: no common subsequence beats the table. -/
theorem dpVal_is_ub (left right : List String) :
    ∀ i j, i ≤ left.length → j ≤ right.length →
      ∀ s : List String, s.Sublist (left.take i) → s.Sublist (right.take j) →
        s.length ≤ dpVal left right i j := by
  suffices H : ∀ k i j, i + j ≤ k → i ≤ left.length → j ≤ right.length →
      ∀ s : List String, s.Sublist (left.take i) → s.Sublist (right.take j) →
        s.length ≤ dpVal left right i j by
    exact fun i j => H (i + j) i j (Nat.le_refl _)
  intro k
  induction k with
  | zero =>
    intro i j hk _ _ s hsl _
    have hi : i = 0 := by omega
    subst hi
    rw [List.take_zero, List.sublist_nil] at hsl
    subst hsl
    simp
  | succ k ih =>
    intro i j hk hi hj s hsl hsr
    match i, j with
    | 0, j =>
      rw [List.take_zero, List.sublist_nil] at hsl
      subst hsl
      simp
    | i'+1, 0 =>
      rw [List.take_zero, List.sublist_nil] at hsr
      subst hsr
      simp
    | i'+1, j'+1 =>
      have hi' : i' < left.length := by omega
      have hj' : j' < right.length := by omega
      have hgl : left[i']? = some (left.getD i' "") := by
        rw [List.getElem?_eq_getElem hi', List.getD_eq_getElem?_getD,
          List.getElem?_eq_getElem hi']
        rfl
      have hgr : right[j']? = some (right.getD j' "") := by
        rw [List.getElem?_eq_getElem hj', List.getD_eq_getElem?_getD,
          List.getElem?_eq_getElem hj']
        rfl
      have htl : left.take (i'+1) = left.take i' ++ [left.getD i' ""] := by
        rw [List.take_succ, hgl]
        rfl
      have htr : right.take (j'+1) = right.take j' ++ [right.getD j' ""] := by
        rw [List.take_succ, hgr]
        rfl
      rw [htl] at hsl
      rw [htr] at hsr
      rw [dpVal_succ_succ]
      by_cases heq : left.getD i' "" = right.getD j' ""
      · rw [if_pos heq]
        rcases sublist_concat_decomp hsl with hL | ⟨s1, rfl, hs1⟩
        · -- s avoids the last left element: bound through dp i' (j'+1)
          have hb : s.length ≤ dpVal left right i' (j'+1) := by
            refine ih i' (j'+1) (by omega) (by omega) hj s hL ?_
            rw [htr]
            exact hsr
          have := (dpVal_adj left right i' j').2.2.2
          omega
        · rcases sublist_concat_decomp hsr with hR | ⟨s2, heq2, hs2⟩
          · -- s avoids the last right element: bound through dp (i'+1) j'
            have hb : s1.length + 1 ≤ dpVal left right (i'+1) j' := by
              have : (s1 ++ [left.getD i' ""]).length ≤ dpVal left right (i'+1) j' := by
                refine ih (i'+1) j' (by omega) hi (by omega) _ ?_ hR
                rw [htl]
                exact hsl
              simpa using this
            have := (dpVal_adj left right i' j').2.2.1
            simp only [List.length_append, List.length_singleton]
            omega
          · -- s ends with the common element on both sides
            have hlen : s1 = s2 ∧ left.getD i' "" = right.getD j' "" := by
              have hinj := List.append_inj' heq2 (by rfl)
              exact ⟨hinj.1, by simpa using hinj.2⟩
            have hb : s1.length ≤ dpVal left right i' j' :=
              ih i' j' (by omega) (by omega) (by omega) s1 hs1 (hlen.1 ▸ hs2)
            simp only [List.length_append, List.length_singleton]
            omega
      · rw [if_neg heq]
        rcases sublist_concat_decomp hsl with hL | ⟨s1, rfl, hs1⟩
        · have hb : s.length ≤ dpVal left right i' (j'+1) := by
            refine ih i' (j'+1) (by omega) (by omega) hj s hL ?_
            rw [htr]
            exact hsr
          exact Nat.le_trans hb (Nat.le_max_left _ _)
        · rcases sublist_concat_decomp hsr with hR | ⟨s2, heq2, hs2⟩
          · have hb : (s1 ++ [left.getD i' ""]).length ≤ dpVal left right (i'+1) j' := by
              refine ih (i'+1) j' (by omega) hi (by omega) _ ?_ hR
              rw [htl]
              exact hsl
            exact Nat.le_trans hb (Nat.le_max_right _ _)
          · exfalso
            have hinj := List.append_inj' heq2 (by rfl)
            exact heq (by simpa using hinj.2)

/-- Structure of the backtracking result: its length is the table value, its
index pairs are strictly increasing and in bounds, and each pair joins equal
keys. -/
theorem backtrack_struct (left right : List String) :
    ∀ i j, i ≤ left.length → j ≤ right.length →
      (backtrack left right i j).length = dpVal left right i j ∧
      (backtrack left right i j).Pairwise
        (fun a b => a.leftIndex < b.leftIndex ∧ a.rightIndex < b.rightIndex) ∧
      ∀ mt ∈ backtrack left right i j, mt.leftIndex < i ∧ mt.rightIndex < j ∧
        left.getD mt.leftIndex "" = mt.value ∧ right.getD mt.rightIndex "" = mt.value := by
  suffices H : ∀ k i j, i + j ≤ k → i ≤ left.length → j ≤ right.length →
      (backtrack left right i j).length = dpVal left right i j ∧
      (backtrack left right i j).Pairwise
        (fun a b => a.leftIndex < b.leftIndex ∧ a.rightIndex < b.rightIndex) ∧
      ∀ mt ∈ backtrack left right i j, mt.leftIndex < i ∧ mt.rightIndex < j ∧
        left.getD mt.leftIndex "" = mt.value ∧ right.getD mt.rightIndex "" = mt.value by
    exact fun i j => H (i + j) i j (Nat.le_refl _)
  intro k
  induction k with
  | zero =>
    intro i j hk _ _
    have hi : i = 0 := by omega
    subst hi
    rw [backtrack_zero_left, dpVal_zero_left]
    exact ⟨rfl, List.Pairwise.nil, by simp⟩
  | succ k ih =>
    intro i j hk hi hj
    match i, j with
    | 0, j =>
      rw [backtrack_zero_left, dpVal_zero_left]
      exact ⟨rfl, List.Pairwise.nil, by simp⟩
    | i'+1, 0 =>
      rw [backtrack_zero_right, dpVal_zero_right]
      exact ⟨rfl, List.Pairwise.nil, by simp⟩
    | i'+1, j'+1 =>
      rw [backtrack_succ_succ, dpVal_succ_succ]
      by_cases heq : left.getD i' "" = right.getD j' ""
      · rw [if_pos heq, if_pos heq]
        obtain ⟨ihlen, ihpw, ihmem⟩ := ih i' j' (by omega) (by omega) (by omega)
        refine ⟨?_, ?_, ?_⟩
        · rw [List.length_append, ihlen]
          rfl
        · rw [List.pairwise_append]
          refine ⟨ihpw, List.pairwise_singleton _ _, ?_⟩
          intro a ha b hb
          rw [List.mem_singleton] at hb
          subst hb
          exact ⟨(ihmem a ha).1, (ihmem a ha).2.1⟩
        · intro mt hmt
          rw [List.mem_append, List.mem_singleton] at hmt
          rcases hmt with hmt | rfl
          · obtain ⟨h1, h2, h3, h4⟩ := ihmem mt hmt
            exact ⟨by omega, by omega, h3, h4⟩
          · exact ⟨Nat.lt_succ_self _, Nat.lt_succ_self _, rfl, heq.symm⟩
      · rw [if_neg heq, if_neg heq]
        by_cases hgt : dpVal left right i' (j'+1) > dpVal left right (i'+1) j'
        · rw [if_pos hgt]
          obtain ⟨ihlen, ihpw, ihmem⟩ := ih i' (j'+1) (by omega) (by omega) hj
          refine ⟨?_, ihpw, ?_⟩
          · rw [ihlen]
            omega
          · intro mt hmt
            obtain ⟨h1, h2, h3, h4⟩ := ihmem mt hmt
            exact ⟨by omega, h2, h3, h4⟩
        · rw [if_neg hgt]
          obtain ⟨ihlen, ihpw, ihmem⟩ := ih (i'+1) j' (by omega) hi (by omega)
          refine ⟨?_, ihpw, ?_⟩
          · rw [ihlen]
            omega
          · intro mt hmt
            obtain ⟨h1, h2, h3, h4⟩ := ihmem mt hmt
            exact ⟨h1, by omega, h3, h4⟩

/-- Matched values, read off along strictly increasing in-bound indices, form
a sublist of the source line list. -/
theorem map_value_sublist (idxOf : LcsMatch → Nat) (lines : List String) :
    ∀ (l : List LcsMatch) (k : Nat),
      (∀ mt ∈ l, k ≤ idxOf mt ∧ idxOf mt < lines.length ∧ lines.getD (idxOf mt) "" = mt.value) →
      l.Pairwise (fun a b => idxOf a < idxOf b) →
      (l.map (fun mt => mt.value)).Sublist (lines.drop k) := by
  intro l
  induction l with
  | nil =>
    intro k _ _
    exact List.nil_sublist _
  | cons m rest ih =>
    intro k hmem hpw
    obtain ⟨hk, hlt, hval⟩ := hmem m (by simp)
    have hdropm : lines.drop (idxOf m) = m.value :: lines.drop (idxOf m + 1) := by
      rw [List.drop_eq_getElem_cons hlt]
      congr 1
      rw [← hval, List.getD_eq_getElem?_getD, List.getElem?_eq_getElem hlt]
      rfl
    have htail : (rest.map (fun mt => mt.value)).Sublist (lines.drop (idxOf m + 1)) := by
      refine ih (idxOf m + 1) ?_ (List.Pairwise.sublist (List.sublist_cons_self _ _) hpw)
      intro mt hmt
      obtain ⟨_, h2, h3⟩ := hmem mt (by simp [hmt])
      have := (List.pairwise_cons.mp hpw).1 mt hmt
      exact ⟨by omega, h2, h3⟩
    have hcons : ((m :: rest).map (fun mt => mt.value)).Sublist (lines.drop (idxOf m)) := by
      rw [List.map_cons, hdropm]
      exact List.Sublist.cons₂ _ htail
    exact hcons.trans (List.drop_sublist_drop_left _ hk)

/-- The source's two-way branch and the spec's three-way branch choose the
same predecessor: on an exact tie the source's `else` decrements the right
index, exactly as the spec words it. -/
theorem backtrackF_eq_specF (left right : List String) :
    ∀ f i j, backtrackF left right f i j = lcsBacktrackSpecF left right f i j := by
  intro f
  induction f with
  | zero =>
    intro i j
    match i, j with
    | 0, _ => rfl
    | _+1, 0 => rfl
    | _+1, _+1 => rfl
  | succ f ih =>
    intro i j
    match i, j with
    | 0, _ => rfl
    | _+1, 0 => rfl
    | i+1, j+1 =>
      show backtrackF left right (f+1) (i+1) (j+1) = lcsBacktrackSpecF left right (f+1) (i+1) (j+1)
      simp only [backtrackF, lcsBacktrackSpecF]
      by_cases heq : left.getD i "" = right.getD j ""
      · rw [if_pos heq, if_pos heq, ih]
      · rw [if_neg heq, if_neg heq]
        by_cases htie : dpVal left right i (j+1) = dpVal left right (i+1) j
        · rw [if_pos htie, if_neg (by omega), ih]
        · rw [if_neg htie]
          by_cases hgt : dpVal left right i (j+1) > dpVal left right (i+1) j
          · rw [if_pos hgt, if_pos hgt, ih]
          · rw [if_neg hgt, if_neg hgt, ih]

theorem computeLCS_eq_spec (left right : List String) :
    computeLCS left right = lcsBacktrackSpec left right :=
  backtrackF_eq_specF left right _ _ _

/-- The structural facts of `backtrack_struct`, read at the entry point. -/
theorem computeLCS_struct (left right : List String) :
    (computeLCS left right).length = dpVal left right left.length right.length ∧
    (computeLCS left right).Pairwise
      (fun a b => a.leftIndex < b.leftIndex ∧ a.rightIndex < b.rightIndex) ∧
    ∀ mt ∈ computeLCS left right, mt.leftIndex < left.length ∧ mt.rightIndex < right.length ∧
      left.getD mt.leftIndex "" = mt.value ∧ right.getD mt.rightIndex "" = mt.value := by
  rw [computeLCS_eq_backtrack]
  exact backtrack_struct left right left.length right.length (Nat.le_refl _) (Nat.le_refl _)

/-- The values matched by `computeLCS` form a common subsequence. -/
theorem computeLCS_common (left right : List String) :
    ((computeLCS left right).map (fun mt => mt.value)).Sublist left ∧
    ((computeLCS left right).map (fun mt => mt.value)).Sublist right := by
  obtain ⟨_, hpw, hmem⟩ := computeLCS_struct left right
  constructor
  · have := map_value_sublist (fun mt => mt.leftIndex) left (computeLCS left right) 0
      (fun mt hmt => ⟨Nat.zero_le _, (hmem mt hmt).1, (hmem mt hmt).2.2.1⟩)
      (hpw.imp (fun h => h.1))
    simpa using this
  · have := map_value_sublist (fun mt => mt.rightIndex) right (computeLCS left right) 0
      (fun mt hmt => ⟨Nat.zero_le _, (hmem mt hmt).2.1, (hmem mt hmt).2.2.2⟩)
      (hpw.imp (fun h => h.2))
    simpa using this

/-- No common subsequence is longer than the matched list. -/
theorem computeLCS_longest (left right : List String) :
    ∀ s : List String, s.Sublist left → s.Sublist right →
      s.length ≤ (computeLCS left right).length := by
  intro s hsl hsr
  rw [(computeLCS_struct left right).1]
  refine dpVal_is_ub left right left.length right.length (Nat.le_refl _) (Nat.le_refl _) s ?_ ?_
  · rw [List.take_length]
    exact hsl
  · rw [List.take_length]
    exact hsr

/-! #### Projections of the raw emission -/

theorem filterMap_map_of_some {α β γ : Type} {f : γ → Option β} {g : α → γ} {h : α → β}
    (hx : ∀ x, f (g x) = some (h x)) : ∀ l : List α, (l.map g).filterMap f = l.map h := by
  intro l
  induction l with
  | nil => rfl
  | cons a t ih => simp [List.map_cons, List.filterMap_cons, hx, ih]

theorem filterMap_map_of_none {α β γ : Type} {f : γ → Option β} {g : α → γ}
    (hx : ∀ x, f (g x) = none) : ∀ l : List α, (l.map g).filterMap f = [] := by
  intro l
  induction l with
  | nil => rfl
  | cons a t ih => simp [List.map_cons, List.filterMap_cons, hx, ih]

theorem buildRaw_filterMap_left {β : Type} (lf rf : List String) (lm rm : List Nat)
    (f : DiffEntry → Option β) (gl : Nat → β)
    (hdel : ∀ i, f (deletedEntry lf lm i) = some (gl i))
    (hunch : ∀ i j, f (unchangedEntry lf rf lm rm i j) = some (gl i))
    (hadd : ∀ j, f (addedEntry rf rm j) = none) :
    ∀ (ms : List LcsMatch) (leftIdx rightIdx : Nat),
      leftIdx ≤ lf.length →
      (∀ mt ∈ ms, leftIdx ≤ mt.leftIndex ∧ mt.leftIndex < lf.length) →
      ms.Pairwise (fun a b => a.leftIndex < b.leftIndex) →
      (buildRaw lf rf lm rm leftIdx rightIdx ms).filterMap f =
        (List.range' leftIdx (lf.length - leftIdx)).map gl := by
  intro ms
  induction ms with
  | nil =>
    intro leftIdx rightIdx _ _ _
    show (((List.range' leftIdx (lf.length - leftIdx)).map (deletedEntry lf lm)) ++
      ((List.range' rightIdx (rf.length - rightIdx)).map (addedEntry rf rm))).filterMap f = _
    rw [List.filterMap_append, filterMap_map_of_some hdel, filterMap_map_of_none hadd,
      List.append_nil]
  | cons m rest ih =>
    intro leftIdx rightIdx hle hmem hpw
    obtain ⟨hlk, hlt⟩ := hmem m (by simp)
    show (((List.range' leftIdx (m.leftIndex - leftIdx)).map (deletedEntry lf lm)) ++
      ((List.range' rightIdx (m.rightIndex - rightIdx)).map (addedEntry rf rm)) ++
        (unchangedEntry lf rf lm rm m.leftIndex m.rightIndex ::
          buildRaw lf rf lm rm (m.leftIndex + 1) (m.rightIndex + 1) rest)).filterMap f = _
    rw [List.filterMap_append, List.filterMap_append, List.filterMap_cons,
      filterMap_map_of_some hdel, filterMap_map_of_none hadd,
      hunch m.leftIndex m.rightIndex, List.append_nil]
    rw [ih (m.leftIndex + 1) (m.rightIndex + 1) (by omega)
        (fun mt hmt => ⟨by
            have := (List.pairwise_cons.mp hpw).1 mt hmt
            omega,
          (hmem mt (by simp [hmt])).2⟩)
        (List.pairwise_cons.mp hpw).2]
    show (List.range' leftIdx (m.leftIndex - leftIdx)).map gl ++
      (gl m.leftIndex ::
        (List.range' (m.leftIndex + 1) (lf.length - (m.leftIndex + 1))).map gl) =
      (List.range' leftIdx (lf.length - leftIdx)).map gl
    have hstep : gl m.leftIndex ::
        (List.range' (m.leftIndex + 1) (lf.length - (m.leftIndex + 1))).map gl =
        (List.range' m.leftIndex (lf.length - m.leftIndex)).map gl := by
      have hc : lf.length - m.leftIndex = (lf.length - (m.leftIndex + 1)) + 1 := by omega
      rw [hc, List.range'_succ, List.map_cons]
    rw [hstep, ← List.map_append]
    have hglue : List.range' leftIdx (m.leftIndex - leftIdx) ++
        List.range' m.leftIndex (lf.length - m.leftIndex) =
        List.range' leftIdx (lf.length - leftIdx) := by
      have := List.range'_append leftIdx (m.leftIndex - leftIdx) (lf.length - m.leftIndex) 1
      rw [show leftIdx + 1 * (m.leftIndex - leftIdx) = m.leftIndex by omega] at this
      rw [this]
      congr 1
      omega
    rw [hglue]

theorem buildRaw_filterMap_right {β : Type} (lf rf : List String) (lm rm : List Nat)
    (f : DiffEntry → Option β) (gr : Nat → β)
    (hdel : ∀ i, f (deletedEntry lf lm i) = none)
    (hunch : ∀ i j, f (unchangedEntry lf rf lm rm i j) = some (gr j))
    (hadd : ∀ j, f (addedEntry rf rm j) = some (gr j)) :
    ∀ (ms : List LcsMatch) (leftIdx rightIdx : Nat),
      rightIdx ≤ rf.length →
      (∀ mt ∈ ms, rightIdx ≤ mt.rightIndex ∧ mt.rightIndex < rf.length) →
      ms.Pairwise (fun a b => a.rightIndex < b.rightIndex) →
      (buildRaw lf rf lm rm leftIdx rightIdx ms).filterMap f =
        (List.range' rightIdx (rf.length - rightIdx)).map gr := by
  intro ms
  induction ms with
  | nil =>
    intro leftIdx rightIdx _ _ _
    show (((List.range' leftIdx (lf.length - leftIdx)).map (deletedEntry lf lm)) ++
      ((List.range' rightIdx (rf.length - rightIdx)).map (addedEntry rf rm))).filterMap f = _
    rw [List.filterMap_append, filterMap_map_of_some hadd, filterMap_map_of_none hdel,
      List.nil_append]
  | cons m rest ih =>
    intro leftIdx rightIdx hle hmem hpw
    obtain ⟨hlk, hlt⟩ := hmem m (by simp)
    show (((List.range' leftIdx (m.leftIndex - leftIdx)).map (deletedEntry lf lm)) ++
      ((List.range' rightIdx (m.rightIndex - rightIdx)).map (addedEntry rf rm)) ++
        (unchangedEntry lf rf lm rm m.leftIndex m.rightIndex ::
          buildRaw lf rf lm rm (m.leftIndex + 1) (m.rightIndex + 1) rest)).filterMap f = _
    rw [List.filterMap_append, List.filterMap_append, List.filterMap_cons,
      filterMap_map_of_some hadd, filterMap_map_of_none hdel,
      hunch m.leftIndex m.rightIndex, List.nil_append]
    rw [ih (m.leftIndex + 1) (m.rightIndex + 1) (by omega)
        (fun mt hmt => ⟨by
            have := (List.pairwise_cons.mp hpw).1 mt hmt
            omega,
          (hmem mt (by simp [hmt])).2⟩)
        (List.pairwise_cons.mp hpw).2]
    show (List.range' rightIdx (m.rightIndex - rightIdx)).map gr ++
      (gr m.rightIndex ::
        (List.range' (m.rightIndex + 1) (rf.length - (m.rightIndex + 1))).map gr) =
      (List.range' rightIdx (rf.length - rightIdx)).map gr
    have hstep : gr m.rightIndex ::
        (List.range' (m.rightIndex + 1) (rf.length - (m.rightIndex + 1))).map gr =
        (List.range' m.rightIndex (rf.length - m.rightIndex)).map gr := by
      have hc : rf.length - m.rightIndex = (rf.length - (m.rightIndex + 1)) + 1 := by omega
      rw [hc, List.range'_succ, List.map_cons]
    rw [hstep, ← List.map_append]
    have hglue : List.range' rightIdx (m.rightIndex - rightIdx) ++
        List.range' m.rightIndex (rf.length - m.rightIndex) =
        List.range' rightIdx (rf.length - rightIdx) := by
      have := List.range'_append rightIdx (m.rightIndex - rightIdx) (rf.length - m.rightIndex) 1
      rw [show rightIdx + 1 * (m.rightIndex - rightIdx) = m.rightIndex by omega] at this
      rw [this]
      congr 1
      omega
    rw [hglue]

/-- Every raw entry is a delete, an add, or the unchanged entry of one of the
ms. -/
theorem buildRaw_mem (lf rf : List String) (lm rm : List Nat) :
    ∀ (ms : List LcsMatch) (leftIdx rightIdx : Nat),
      ∀ e ∈ buildRaw lf rf lm rm leftIdx rightIdx ms,
        (∃ i, e = deletedEntry lf lm i) ∨ (∃ j, e = addedEntry rf rm j) ∨
        (∃ mt ∈ ms, e = unchangedEntry lf rf lm rm mt.leftIndex mt.rightIndex) := by
  intro ms
  induction ms with
  | nil =>
    intro leftIdx rightIdx e he
    rw [show buildRaw lf rf lm rm leftIdx rightIdx [] =
        ((List.range' leftIdx (lf.length - leftIdx)).map (deletedEntry lf lm)) ++
        ((List.range' rightIdx (rf.length - rightIdx)).map (addedEntry rf rm)) from rfl,
      List.mem_append] at he
    rcases he with he | he
    · rcases List.mem_map.mp he with ⟨i, _, rfl⟩
      exact Or.inl ⟨i, rfl⟩
    · rcases List.mem_map.mp he with ⟨j, _, rfl⟩
      exact Or.inr (Or.inl ⟨j, rfl⟩)
  | cons m rest ih =>
    intro leftIdx rightIdx e he
    rw [show buildRaw lf rf lm rm leftIdx rightIdx (m :: rest) =
        ((List.range' leftIdx (m.leftIndex - leftIdx)).map (deletedEntry lf lm)) ++
        ((List.range' rightIdx (m.rightIndex - rightIdx)).map (addedEntry rf rm)) ++
          (unchangedEntry lf rf lm rm m.leftIndex m.rightIndex ::
            buildRaw lf rf lm rm (m.leftIndex + 1) (m.rightIndex + 1) rest) from rfl,
      List.mem_append, List.mem_append, List.mem_cons] at he
    rcases he with (he | he) | he | he
    · rcases List.mem_map.mp he with ⟨i, _, rfl⟩
      exact Or.inl ⟨i, rfl⟩
    · rcases List.mem_map.mp he with ⟨j, _, rfl⟩
      exact Or.inr (Or.inl ⟨j, rfl⟩)
    · exact Or.inr (Or.inr ⟨m, by simp, he⟩)
    · rcases ih _ _ e he with h | h | ⟨mt, hmt, hh⟩
      · exact Or.inl h
      · exact Or.inr (Or.inl h)
      · exact Or.inr (Or.inr ⟨mt, by simp [hmt], hh⟩)

/-! #### The merge phase preserves both side projections -/

theorem filterMap_zipWith_left {β : Type} (f : DiffEntry → Option β)
    (hmod : ∀ d a, f (modifiedOf d a) = f d) :
    ∀ (ds as : List DiffEntry),
      (List.zipWith modifiedOf ds as).filterMap f = (ds.take as.length).filterMap f := by
  intro ds
  induction ds with
  | nil => intro as; simp
  | cons d ds' ih =>
    intro as
    cases as with
    | nil => simp
    | cons a as' =>
      simp only [List.zipWith_cons_cons, List.length_cons, List.take_succ_cons,
        List.filterMap_cons, hmod, ih]

theorem filterMap_zipWith_right {β : Type} (f : DiffEntry → Option β)
    (hmod : ∀ d a, f (modifiedOf d a) = f a) :
    ∀ (ds as : List DiffEntry),
      (List.zipWith modifiedOf ds as).filterMap f = (as.take ds.length).filterMap f := by
  intro ds
  induction ds with
  | nil => intro as; simp
  | cons d ds' ih =>
    intro as
    cases as with
    | nil => simp
    | cons a as' =>
      simp only [List.zipWith_cons_cons, List.length_cons, List.take_succ_cons,
        List.filterMap_cons, hmod, ih]

theorem mergeRuns_filterMap_left {β : Type} (f : DiffEntry → Option β)
    (hmod : ∀ d a, f (modifiedOf d a) = f d) (ds as : List DiffEntry)
    (hasnone : ∀ e ∈ as, f e = none) :
    (mergeRuns ds as).filterMap f = (ds ++ as).filterMap f := by
  unfold mergeRuns
  rw [List.filterMap_append, filterMap_of_none hasnone, List.append_nil]
  by_cases hc : ds.length > 0 ∧ as.length > 0
  · rw [if_pos hc]
    rw [List.filterMap_append, List.filterMap_append, filterMap_zipWith_left f hmod,
      filterMap_of_none (fun e he => hasnone e (List.mem_of_mem_drop he)), List.append_nil,
      ← List.filterMap_append, List.take_append_drop]
  · rw [if_neg hc]

theorem mergeRuns_filterMap_right {β : Type} (f : DiffEntry → Option β)
    (hmod : ∀ d a, f (modifiedOf d a) = f a) (ds as : List DiffEntry)
    (hdsnone : ∀ e ∈ ds, f e = none) (hds : ds ≠ []) :
    (mergeRuns ds as).filterMap f = (ds ++ as).filterMap f := by
  unfold mergeRuns
  by_cases hc : ds.length > 0 ∧ as.length > 0
  · rw [if_pos hc]
    rw [List.filterMap_append, List.filterMap_append, filterMap_zipWith_right f hmod,
      filterMap_of_none (fun e he => hdsnone e (List.mem_of_mem_drop he)),
      List.append_nil, ← List.filterMap_append, List.take_append_drop,
      List.filterMap_append, filterMap_of_none hdsnone, List.nil_append]
  · rw [if_neg hc]
    have h0 : as = [] := by
      cases as with
      | nil => rfl
      | cons a as' =>
        exfalso
        apply hc
        refine ⟨?_, by simp⟩
        cases ds with
        | nil => exact absurd rfl hds
        | cons d ds' => simp
    subst h0
    rw [List.append_nil]

theorem mergeDiff_filterMap_left {β : Type} (f : DiffEntry → Option β)
    (hmod : ∀ d a, f (modifiedOf d a) = f d) :
    ∀ l : List DiffEntry, (∀ e ∈ l, isAddedE e = true → f e = none) →
      (mergeDiff l).filterMap f = l.filterMap f := by
  suffices H : ∀ n l, l.length ≤ n → (∀ e ∈ l, isAddedE e = true → f e = none) →
      (mergeDiff l).filterMap f = l.filterMap f by
    exact fun l => H l.length l (Nat.le_refl _)
  intro n
  induction n with
  | zero =>
    intro l hn _
    have h0 : l = [] := by
      cases l with
      | nil => rfl
      | cons e rest => simp at hn
    subst h0
    rfl
  | succ n ih =>
    intro l hn hnone
    match l with
    | [] => rfl
    | e :: rest =>
      rw [mergeDiff_cons]
      by_cases hdel : isDeletedE e
      · rw [if_pos hdel]
        have hdecomp : e :: rest =
            (e :: rest.takeWhile isDeletedE) ++
              (((rest.dropWhile isDeletedE).takeWhile isAddedE) ++
                ((rest.dropWhile isDeletedE).dropWhile isAddedE)) := by
          rw [List.takeWhile_append_dropWhile, List.cons_append,
            List.takeWhile_append_dropWhile]
        rw [List.filterMap_append]
        rw [mergeRuns_filterMap_left f hmod _ _
          (fun x hx => hnone x
            (by
              have hx1 : x ∈ rest.dropWhile isDeletedE := (List.takeWhile_sublist _).subset hx
              exact List.mem_cons_of_mem _ ((List.dropWhile_sublist _).subset hx1))
            (List.mem_takeWhile_imp hx))]
        rw [ih ((rest.dropWhile isDeletedE).dropWhile isAddedE)
          (by
            have h1 : ((rest.dropWhile isDeletedE).dropWhile isAddedE).length ≤ rest.length :=
              Nat.le_trans (dropWhile_length_le _ _) (dropWhile_length_le _ _)
            simp only [List.length_cons] at hn
            omega)
          (fun x hx hax => hnone x
            (by
              have hx1 : x ∈ rest.dropWhile isDeletedE := (List.dropWhile_sublist _).subset hx
              exact List.mem_cons_of_mem _ ((List.dropWhile_sublist _).subset hx1))
            hax)]
        rw [← List.filterMap_append, List.append_assoc, ← hdecomp]
      · rw [if_neg hdel]
        rw [List.filterMap_cons, List.filterMap_cons]
        rw [ih rest (by simp only [List.length_cons] at hn; omega)
          (fun x hx hax => hnone x (List.mem_cons_of_mem _ hx) hax)]

theorem mergeDiff_filterMap_right {β : Type} (f : DiffEntry → Option β)
    (hmod : ∀ d a, f (modifiedOf d a) = f a) :
    ∀ l : List DiffEntry, (∀ e ∈ l, isDeletedE e = true → f e = none) →
      (mergeDiff l).filterMap f = l.filterMap f := by
  suffices H : ∀ n l, l.length ≤ n → (∀ e ∈ l, isDeletedE e = true → f e = none) →
      (mergeDiff l).filterMap f = l.filterMap f by
    exact fun l => H l.length l (Nat.le_refl _)
  intro n
  induction n with
  | zero =>
    intro l hn _
    have h0 : l = [] := by
      cases l with
      | nil => rfl
      | cons e rest => simp at hn
    subst h0
    rfl
  | succ n ih =>
    intro l hn hnone
    match l with
    | [] => rfl
    | e :: rest =>
      rw [mergeDiff_cons]
      by_cases hdel : isDeletedE e
      · rw [if_pos hdel]
        have hdecomp : e :: rest =
            (e :: rest.takeWhile isDeletedE) ++
              (((rest.dropWhile isDeletedE).takeWhile isAddedE) ++
                ((rest.dropWhile isDeletedE).dropWhile isAddedE)) := by
          rw [List.takeWhile_append_dropWhile, List.cons_append,
            List.takeWhile_append_dropWhile]
        rw [List.filterMap_append]
        rw [mergeRuns_filterMap_right f hmod _ _
          (fun x hx => hnone x
            (by
              rcases List.mem_cons.mp hx with rfl | hx'
              · exact List.mem_cons_self _ _
              · exact List.mem_cons_of_mem _ ((List.takeWhile_sublist _).subset hx'))
            (by
              rcases List.mem_cons.mp hx with rfl | hx'
              · exact hdel
              · exact List.mem_takeWhile_imp hx')) (by simp)]
        rw [ih ((rest.dropWhile isDeletedE).dropWhile isAddedE)
          (by
            have h1 : ((rest.dropWhile isDeletedE).dropWhile isAddedE).length ≤ rest.length :=
              Nat.le_trans (dropWhile_length_le _ _) (dropWhile_length_le _ _)
            simp only [List.length_cons] at hn
            omega)
          (fun x hx hax => hnone x
            (by
              have hx1 : x ∈ rest.dropWhile isDeletedE := (List.dropWhile_sublist _).subset hx
              exact List.mem_cons_of_mem _ ((List.dropWhile_sublist _).subset hx1))
            hax)]
        rw [← List.filterMap_append, List.append_assoc, ← hdecomp]
      · rw [if_neg hdel]
        rw [List.filterMap_cons, List.filterMap_cons]
        rw [ih rest (by simp only [List.length_cons] at hn; omega)
          (fun x hx hax => hnone x (List.mem_cons_of_mem _ hx) hax)]

/-! #### Membership structure of the merged list -/

theorem mem_zipWith_modifiedOf :
    ∀ (ds as : List DiffEntry) (x : DiffEntry), x ∈ List.zipWith modifiedOf ds as →
      ∃ d ∈ ds, ∃ a ∈ as, x = modifiedOf d a := by
  intro ds
  induction ds with
  | nil => intro as x hx; simp at hx
  | cons d ds' ih =>
    intro as x hx
    cases as with
    | nil => simp at hx
    | cons a as' =>
      rw [List.zipWith_cons_cons, List.mem_cons] at hx
      rcases hx with rfl | hx
      · exact ⟨d, by simp, a, by simp, rfl⟩
      · rcases ih as' x hx with ⟨d', hd', a', ha', rfl⟩
        exact ⟨d', by simp [hd'], a', by simp [ha'], rfl⟩

theorem mergeRuns_mem (ds as : List DiffEntry) (x : DiffEntry) (hx : x ∈ mergeRuns ds as) :
    x ∈ ds ∨ x ∈ as ∨ ∃ d ∈ ds, ∃ a ∈ as, x = modifiedOf d a := by
  unfold mergeRuns at hx
  by_cases hc : ds.length > 0 ∧ as.length > 0
  · rw [if_pos hc] at hx
    rw [List.mem_append, List.mem_append] at hx
    rcases hx with (hx | hx) | hx
    · exact Or.inr (Or.inr (mem_zipWith_modifiedOf ds as x hx))
    · exact Or.inl (List.mem_of_mem_drop hx)
    · exact Or.inr (Or.inl (List.mem_of_mem_drop hx))
  · rw [if_neg hc] at hx
    exact Or.inl hx

theorem mergeDiff_mem :
    ∀ (l : List DiffEntry) (x : DiffEntry), x ∈ mergeDiff l →
      x ∈ l ∨ ∃ d ∈ l, ∃ a ∈ l, isDeletedE d = true ∧ isAddedE a = true ∧
        x = modifiedOf d a := by
  suffices H : ∀ n l, l.length ≤ n → ∀ x, x ∈ mergeDiff l →
      x ∈ l ∨ ∃ d ∈ l, ∃ a ∈ l, isDeletedE d = true ∧ isAddedE a = true ∧
        x = modifiedOf d a by
    exact fun l x => H l.length l (Nat.le_refl _) x
  intro n
  induction n with
  | zero =>
    intro l hn x hx
    have h0 : l = [] := by
      cases l with
      | nil => rfl
      | cons e rest => simp at hn
    subst h0
    simp [mergeDiff_nil] at hx
  | succ n ih =>
    intro l hn x hx
    match l with
    | [] => simp [mergeDiff_nil] at hx
    | e :: rest =>
      rw [mergeDiff_cons] at hx
      by_cases hdel : isDeletedE e
      · rw [if_pos hdel, List.mem_append] at hx
        have hds : ∀ y ∈ e :: rest.takeWhile isDeletedE, y ∈ e :: rest := by
          intro y hy
          rcases List.mem_cons.mp hy with rfl | hy'
          · exact List.mem_cons_self _ _
          · exact List.mem_cons_of_mem _ ((List.takeWhile_sublist _).subset hy')
        have has : ∀ y ∈ (rest.dropWhile isDeletedE).takeWhile isAddedE, y ∈ e :: rest := by
          intro y hy
          have hy1 : y ∈ rest.dropWhile isDeletedE := (List.takeWhile_sublist _).subset hy
          exact List.mem_cons_of_mem _ ((List.dropWhile_sublist _).subset hy1)
        rcases hx with hx | hx
        · rcases mergeRuns_mem _ _ x hx with h | h | ⟨d, hd, a, ha, rfl⟩
          · exact Or.inl (hds x h)
          · exact Or.inl (has x h)
          · refine Or.inr ⟨d, hds d hd, a, has a ha, ?_, List.mem_takeWhile_imp ha, rfl⟩
            rcases List.mem_cons.mp hd with rfl | hd'
            · exact hdel
            · exact List.mem_takeWhile_imp hd'
        · have hsub : ∀ y ∈ (rest.dropWhile isDeletedE).dropWhile isAddedE, y ∈ e :: rest := by
            intro y hy
            have hy1 : y ∈ rest.dropWhile isDeletedE := (List.dropWhile_sublist _).subset hy
            exact List.mem_cons_of_mem _ ((List.dropWhile_sublist _).subset hy1)
          have hlen : ((rest.dropWhile isDeletedE).dropWhile isAddedE).length ≤ n := by
            have h1 : ((rest.dropWhile isDeletedE).dropWhile isAddedE).length ≤ rest.length :=
              Nat.le_trans (dropWhile_length_le _ _) (dropWhile_length_le _ _)
            simp only [List.length_cons] at hn
            omega
          rcases ih _ hlen x hx with h | ⟨d, hd, a, ha, hdd, haa, rfl⟩
          · exact Or.inl (hsub x h)
          · exact Or.inr ⟨d, hsub d hd, a, hsub a ha, hdd, haa, rfl⟩
      · rw [if_neg hdel, List.mem_cons] at hx
        rcases hx with rfl | hx
        · exact Or.inl (List.mem_cons_self _ _)
        · rcases ih rest (by simp only [List.length_cons] at hn; omega) x hx with
            h | ⟨d, hd, a, ha, hdd, haa, rfl⟩
          · exact Or.inl (List.mem_cons_of_mem _ h)
          · exact Or.inr ⟨d, List.mem_cons_of_mem _ hd, a, List.mem_cons_of_mem _ ha,
              hdd, haa, rfl⟩

/-! #### The line mapping -/

theorem filter_enumFrom_length {α : Type} (q : α → Bool) :
    ∀ (L : List α) (n : Nat),
      ((List.enumFrom n L).filter (fun p => q p.2)).length = (L.filter q).length := by
  intro L
  induction L with
  | nil => intro n; rfl
  | cons a t ih =>
    intro n
    show (((n, a) :: List.enumFrom (n+1) t).filter (fun p => q p.2)).length =
      ((a :: t).filter q).length
    rw [List.filter_cons, List.filter_cons]
    cases hq : q a <;> simp [ih]

theorem lineMapping_length (o : ComparisonOptions) (L : List String) :
    (lineMapping o L).length = (filteredLines o L).length := by
  unfold lineMapping filteredLines
  by_cases hb : o.ignoreBlankLines
  · rw [if_pos hb, if_pos hb, List.length_map]
    exact filter_enumFrom_length (fun l => jsTrim l != "") L 0
  · rw [if_neg hb, if_neg hb, List.length_range]

theorem lineMapping_pairwise (o : ComparisonOptions) (L : List String) :
    (lineMapping o L).Pairwise (· < ·) := by
  unfold lineMapping
  by_cases hb : o.ignoreBlankLines
  · rw [if_pos hb]
    have hsub : ((L.enum.filter (fun p => jsTrim p.2 != "")).map Prod.fst).Sublist
        (L.enum.map Prod.fst) := List.Sublist.map _ (List.filter_sublist _)
    rw [List.enum_map_fst] at hsub
    exact List.Pairwise.sublist hsub (List.pairwise_lt_range _)
  · rw [if_neg hb]
    exact List.pairwise_lt_range _

/-! #### Projections of the full diff -/

theorem rawDiff_filterMap_leftNum (L R : List String) (o : ComparisonOptions) :
    (rawDiff L R o).filterMap (fun e => e.leftLineNum) = (lineMapping o L).map (· + 1) := by
  unfold rawDiff
  obtain ⟨-, hpw, hmem⟩ := computeLCS_struct ((filteredLines o L).map (processLine o))
    ((filteredLines o R).map (processLine o))
  rw [buildRaw_filterMap_left (filteredLines o L) (filteredLines o R)
      (lineMapping o L) (lineMapping o R)
      (fun e => e.leftLineNum) (fun i => (lineMapping o L).getD i 0 + 1)
      (fun i => rfl) (fun i j => rfl) (fun j => rfl)
      _ 0 0 (Nat.zero_le _)
      (fun mt hmt => ⟨Nat.zero_le _, by
        have := (hmem mt hmt).1
        simpa using this⟩)
      (hpw.imp (fun h => h.1))]
  rw [Nat.sub_zero, ← List.range_eq_range']
  rw [show (filteredLines o L).length = (lineMapping o L).length from
    (lineMapping_length o L).symm]
  exact map_getD_range (fun x => x + 1) 0 (lineMapping o L)

theorem rawDiff_filterMap_leftLine (L R : List String) (o : ComparisonOptions) :
    (rawDiff L R o).filterMap (fun e => e.leftLine) = filteredLines o L := by
  unfold rawDiff
  obtain ⟨-, hpw, hmem⟩ := computeLCS_struct ((filteredLines o L).map (processLine o))
    ((filteredLines o R).map (processLine o))
  rw [buildRaw_filterMap_left (filteredLines o L) (filteredLines o R)
      (lineMapping o L) (lineMapping o R)
      (fun e => e.leftLine) (fun i => (filteredLines o L).getD i "")
      (fun i => rfl) (fun i j => rfl) (fun j => rfl)
      _ 0 0 (Nat.zero_le _)
      (fun mt hmt => ⟨Nat.zero_le _, by
        have := (hmem mt hmt).1
        simpa using this⟩)
      (hpw.imp (fun h => h.1))]
  rw [Nat.sub_zero, ← List.range_eq_range']
  have := map_getD_range (fun x : String => x) "" (filteredLines o L)
  rw [this]
  exact List.map_id' _

theorem rawDiff_filterMap_rightNum (L R : List String) (o : ComparisonOptions) :
    (rawDiff L R o).filterMap (fun e => e.rightLineNum) = (lineMapping o R).map (· + 1) := by
  unfold rawDiff
  obtain ⟨-, hpw, hmem⟩ := computeLCS_struct ((filteredLines o L).map (processLine o))
    ((filteredLines o R).map (processLine o))
  rw [buildRaw_filterMap_right (filteredLines o L) (filteredLines o R)
      (lineMapping o L) (lineMapping o R)
      (fun e => e.rightLineNum) (fun j => (lineMapping o R).getD j 0 + 1)
      (fun i => rfl) (fun i j => rfl) (fun j => rfl)
      _ 0 0 (Nat.zero_le _)
      (fun mt hmt => ⟨Nat.zero_le _, by
        have := (hmem mt hmt).2.1
        simpa using this⟩)
      (hpw.imp (fun h => h.2))]
  rw [Nat.sub_zero, ← List.range_eq_range']
  rw [show (filteredLines o R).length = (lineMapping o R).length from
    (lineMapping_length o R).symm]
  exact map_getD_range (fun x => x + 1) 0 (lineMapping o R)

theorem rawDiff_filterMap_rightLine (L R : List String) (o : ComparisonOptions) :
    (rawDiff L R o).filterMap (fun e => e.rightLine) = filteredLines o R := by
  unfold rawDiff
  obtain ⟨-, hpw, hmem⟩ := computeLCS_struct ((filteredLines o L).map (processLine o))
    ((filteredLines o R).map (processLine o))
  rw [buildRaw_filterMap_right (filteredLines o L) (filteredLines o R)
      (lineMapping o L) (lineMapping o R)
      (fun e => e.rightLine) (fun j => (filteredLines o R).getD j "")
      (fun i => rfl) (fun i j => rfl) (fun j => rfl)
      _ 0 0 (Nat.zero_le _)
      (fun mt hmt => ⟨Nat.zero_le _, by
        have := (hmem mt hmt).2.1
        simpa using this⟩)
      (hpw.imp (fun h => h.2))]
  rw [Nat.sub_zero, ← List.range_eq_range']
  have := map_getD_range (fun x : String => x) "" (filteredLines o R)
  rw [this]
  exact List.map_id' _

theorem rawDiff_added_none_left (L R : List String) (o : ComparisonOptions) :
    ∀ e ∈ rawDiff L R o, isAddedE e = true →
      (e.leftLine = none ∧ e.leftLineNum = none) := by
  intro e he hae
  rcases buildRaw_mem _ _ _ _ _ _ _ e he with ⟨i, rfl⟩ | ⟨j, rfl⟩ | ⟨mt, hmt, rfl⟩
  · simp [isAddedE, deletedEntry] at hae
  · exact ⟨rfl, rfl⟩
  · simp [isAddedE, unchangedEntry] at hae

theorem rawDiff_deleted_none_right (L R : List String) (o : ComparisonOptions) :
    ∀ e ∈ rawDiff L R o, isDeletedE e = true →
      (e.rightLine = none ∧ e.rightLineNum = none) := by
  intro e he hae
  rcases buildRaw_mem _ _ _ _ _ _ _ e he with ⟨i, rfl⟩ | ⟨j, rfl⟩ | ⟨mt, hmt, rfl⟩
  · exact ⟨rfl, rfl⟩
  · simp [isDeletedE, addedEntry] at hae
  · simp [isDeletedE, unchangedEntry] at hae

theorem computeLineDiff_filterMap_leftNum (L R : List String) (o : ComparisonOptions) :
    (computeLineDiff L R o).filterMap (fun e => e.leftLineNum) =
      (lineMapping o L).map (· + 1) := by
  unfold computeLineDiff
  rw [mergeDiff_filterMap_left (fun e => e.leftLineNum) (fun d a => rfl) _
    (fun e he hae => (rawDiff_added_none_left L R o e he hae).2)]
  exact rawDiff_filterMap_leftNum L R o

theorem computeLineDiff_filterMap_leftLine (L R : List String) (o : ComparisonOptions) :
    (computeLineDiff L R o).filterMap (fun e => e.leftLine) = filteredLines o L := by
  unfold computeLineDiff
  rw [mergeDiff_filterMap_left (fun e => e.leftLine) (fun d a => rfl) _
    (fun e he hae => (rawDiff_added_none_left L R o e he hae).1)]
  exact rawDiff_filterMap_leftLine L R o

theorem computeLineDiff_filterMap_rightNum (L R : List String) (o : ComparisonOptions) :
    (computeLineDiff L R o).filterMap (fun e => e.rightLineNum) =
      (lineMapping o R).map (· + 1) := by
  unfold computeLineDiff
  rw [mergeDiff_filterMap_right (fun e => e.rightLineNum) (fun d a => rfl) _
    (fun e he hae => (rawDiff_deleted_none_right L R o e he hae).2)]
  exact rawDiff_filterMap_rightNum L R o

theorem computeLineDiff_filterMap_rightLine (L R : List String) (o : ComparisonOptions) :
    (computeLineDiff L R o).filterMap (fun e => e.rightLine) = filteredLines o R := by
  unfold computeLineDiff
  rw [mergeDiff_filterMap_right (fun e => e.rightLine) (fun d a => rfl) _
    (fun e he hae => (rawDiff_deleted_none_right L R o e he hae).1)]
  exact rawDiff_filterMap_rightLine L R o

/-! #### Counting occurrences -/

theorem countP_eq_count_filterMap {α β : Type} [DecidableEq β] (f : α → Option β) (b : β) :
    ∀ l : List α, l.countP (fun a => f a == some b) = (l.filterMap f).count b := by
  intro l
  induction l with
  | nil => rfl
  | cons a t ih =>
    rw [List.countP_cons, List.filterMap_cons]
    cases hfa : f a with
    | none => simp [hfa, ih]
    | some c =>
      by_cases hc : c = b
      · subst hc
        simp [hfa, ih, List.count_cons]
      · simp [hfa, ih, List.count_cons, hc]

/-! #### The diff of a list against itself -/

theorem processLine_default (l : String) : processLine {} l = l := rfl

theorem map_processLine_default (L : List String) : L.map (processLine {}) = L :=
  List.map_id'' (fun l => rfl) L

theorem filteredLines_default (L : List String) : filteredLines {} L = L := rfl

theorem lineMapping_default (L : List String) : lineMapping {} L = List.range L.length := rfl

theorem backtrack_diag (L : List String) :
    ∀ i : Nat, backtrack L L i i =
      (List.range i).map (fun t => { leftIndex := t, rightIndex := t, value := L.getD t "" }) := by
  intro i
  induction i with
  | zero => rw [backtrack_zero_left]; rfl
  | succ i ih =>
    rw [backtrack_succ_succ, if_pos rfl, ih, List.range_succ, List.map_append]
    rfl

theorem buildRaw_diag (L : List String) :
    ∀ (c k : Nat), k + c = L.length →
      buildRaw L L (List.range L.length) (List.range L.length) k k
        ((List.range' k c).map
          (fun t => { leftIndex := t, rightIndex := t, value := L.getD t "" })) =
      (List.range' k c).map
        (fun t => unchangedEntry L L (List.range L.length) (List.range L.length) t t) := by
  intro c
  induction c with
  | zero =>
    intro k hk
    have hkl : k = L.length := by omega
    subst hkl
    simp [buildRaw, Nat.sub_self]
  | succ c ih =>
    intro k hk
    rw [List.range'_succ, List.map_cons, List.map_cons]
    show buildRaw L L (List.range L.length) (List.range L.length) k k
        ({ leftIndex := k, rightIndex := k, value := L.getD k "" } ::
          (List.range' (k+1) c).map
            (fun t => { leftIndex := t, rightIndex := t, value := L.getD t "" })) = _
    simp only [buildRaw, Nat.sub_self, List.range'_zero, List.map_nil, List.nil_append,
      List.append_nil]
    rw [ih (k+1) (by omega)]

/-! #### The block-merger run equation -/

theorem added_not_deleted {e : DiffEntry} (h : isAddedE e = true) : isDeletedE e = false := by
  unfold isAddedE at h
  unfold isDeletedE
  rw [beq_iff_eq] at h
  rw [h]
  rfl

theorem mergeDiff_run (ds as rest : List DiffEntry)
    (hds : ∀ e ∈ ds, isDeletedE e = true) (hne : ds ≠ [])
    (has : ∀ e ∈ as, isAddedE e = true)
    (hrest_add : ∀ e, rest.head? = some e → isAddedE e = false)
    (hrest_del : as = [] → ∀ e, rest.head? = some e → isDeletedE e = false) :
    mergeDiff (ds ++ as ++ rest) = mergeRuns ds as ++ mergeDiff rest := by
  match ds, hne with
  | d :: ds', _ =>
    have hstep : (d :: ds') ++ as ++ rest = d :: (ds' ++ (as ++ rest)) := by
      simp [List.append_assoc]
    rw [hstep, mergeDiff_cons, if_pos (hds d (by simp))]
    have htw1 : (ds' ++ (as ++ rest)).takeWhile isDeletedE = ds' ++ [] := by
      rw [List.takeWhile_append_of_pos (fun x hx => hds x (by simp [hx]))]
      congr 1
      cases as with
      | nil =>
        cases rest with
        | nil => rfl
        | cons r rest' =>
          rw [List.nil_append, List.takeWhile_cons_of_neg]
          rw [hrest_del rfl r rfl]
          simp
      | cons a as' =>
        rw [List.cons_append, List.takeWhile_cons_of_neg]
        rw [added_not_deleted (has a (by simp))]
        simp
    have hdw1 : (ds' ++ (as ++ rest)).dropWhile isDeletedE = as ++ rest := by
      rw [List.dropWhile_append_of_pos (fun x hx => hds x (by simp [hx]))]
      cases as with
      | nil =>
        cases rest with
        | nil => rfl
        | cons r rest' =>
          rw [List.nil_append, List.dropWhile_cons_of_neg]
          rw [hrest_del rfl r rfl]
          simp
      | cons a as' =>
        rw [List.cons_append, List.dropWhile_cons_of_neg]
        rw [added_not_deleted (has a (by simp))]
        simp
    have htw2 : (as ++ rest).takeWhile isAddedE = as := by
      rw [List.takeWhile_append_of_pos has]
      have hr : rest.takeWhile isAddedE = [] := by
        cases rest with
        | nil => rfl
        | cons r rest' =>
          rw [List.takeWhile_cons_of_neg]
          rw [hrest_add r rfl]
          simp
      rw [hr, List.append_nil]
    have hdw2 : (as ++ rest).dropWhile isAddedE = rest := by
      rw [List.dropWhile_append_of_pos has]
      cases rest with
      | nil => rfl
      | cons r rest' =>
        rw [List.dropWhile_cons_of_neg]
        rw [hrest_add r rfl]
        simp
    rw [htw1, List.append_nil, hdw1, htw2, hdw2]

/-! #### The alignment-sum invariant -/

theorem zoneHeightsSum_flush (st : ZoneState) :
    zoneHeightsSum (flushZones st) = zoneHeightsSum st.zones + st.pendingPlaceholders := by
  unfold flushZones
  by_cases hp : st.pendingPlaceholders > 0
  · rw [if_pos hp]
    unfold zoneHeightsSum
    rw [List.map_append, List.sum_append]
    rfl
  · rw [if_neg hp]
    omega

theorem zoneStep_invariant (side : String) (st : ZoneState) (e : DiffEntry) :
    zoneHeightsSum (zoneStep side st e).zones + (zoneStep side st e).pendingPlaceholders =
      zoneHeightsSum st.zones + st.pendingPlaceholders +
        (if lacksOnSide side e then 1 else 0) := by
  simp only [zoneStep, lacksOnSide]
  by_cases hthis : (if side == "left" then e.leftLineNum else e.rightLineNum).isSome = true
  · rw [if_pos hthis]
    have hno : (if side == "left" then e.leftLineNum else e.rightLineNum).isNone = false := by
      rcases Option.isSome_iff_exists.mp hthis with ⟨v, hv⟩
      rw [hv]
      rfl
    simp only [hno, Bool.false_and, Bool.false_eq_true, if_false]
    show zoneHeightsSum (flushZones st) + 0 = _
    rw [zoneHeightsSum_flush]
  · rw [if_neg hthis]
    have hnone : (if side == "left" then e.leftLineNum else e.rightLineNum) = none := by
      cases hval : (if side == "left" then e.leftLineNum else e.rightLineNum) with
      | none => rfl
      | some v =>
        rw [hval] at hthis
        simp at hthis
    simp only [hnone, Option.isNone_none, Bool.true_and]
    by_cases hother : (if side == "left" then e.rightLineNum else e.leftLineNum).isSome = true
    · rw [if_pos hother, if_pos hother]
      show zoneHeightsSum st.zones + (st.pendingPlaceholders + 1) = _
      omega
    · rw [if_neg hother, if_neg hother]
      omega

theorem zones_fold_invariant (side : String) :
    ∀ (l : List DiffEntry) (st : ZoneState),
      zoneHeightsSum (l.foldl (zoneStep side) st).zones +
        (l.foldl (zoneStep side) st).pendingPlaceholders =
      zoneHeightsSum st.zones + st.pendingPlaceholders + l.countP (lacksOnSide side) := by
  intro l
  induction l with
  | nil =>
    intro st
    rw [List.foldl_nil, List.countP_nil]
    omega
  | cons e rest ih =>
    intro st
    rw [List.foldl_cons, ih, zoneStep_invariant, List.countP_cons]
    omega

/-! #### Types of the entries the engine produces -/

theorem rawDiff_validType (L R : List String) (o : ComparisonOptions) :
    ∀ e ∈ rawDiff L R o, validType e = true := by
  intro e he
  rcases buildRaw_mem _ _ _ _ _ _ _ e he with ⟨i, rfl⟩ | ⟨j, rfl⟩ | ⟨mt, hmt, rfl⟩ <;> rfl

theorem computeLineDiff_validType (L R : List String) (o : ComparisonOptions) :
    ∀ e ∈ computeLineDiff L R o, validType e = true := by
  intro e he
  rcases mergeDiff_mem _ e he with h | ⟨d, hd, a, ha, hdd, haa, rfl⟩
  · exact rawDiff_validType L R o e h
  · rfl

/-- Every entry of the final diff satisfies the §3 shape invariant. -/
theorem computeLineDiff_WF (L R : List String) (o : ComparisonOptions) :
    ∀ e ∈ computeLineDiff L R o, WFEntry e := by
  have hraw : ∀ e ∈ rawDiff L R o, WFEntry e := by
    intro e he
    rcases buildRaw_mem _ _ _ _ _ _ _ e he with ⟨i, rfl⟩ | ⟨j, rfl⟩ | ⟨mt, hmt, rfl⟩
    · exact Or.inr (Or.inl ⟨rfl, rfl, rfl, rfl, rfl⟩)
    · exact Or.inr (Or.inr (Or.inl ⟨rfl, rfl, rfl, rfl, rfl⟩))
    · exact Or.inl ⟨rfl, rfl, rfl, rfl, rfl⟩
  intro e he
  rcases mergeDiff_mem _ e he with h | ⟨d, hd, a, ha, hdd, haa, rfl⟩
  · exact hraw e h
  · -- a modified pair takes its left fields from a raw delete, right from a raw add
    rcases buildRaw_mem _ _ _ _ _ _ _ d hd with ⟨i, rfl⟩ | ⟨j, rfl⟩ | ⟨mt, hmt, rfl⟩
    · rcases buildRaw_mem _ _ _ _ _ _ _ a ha with ⟨i', rfl⟩ | ⟨j', rfl⟩ | ⟨mt', hmt', rfl⟩
      · simp [isAddedE, deletedEntry] at haa
      · exact Or.inr (Or.inr (Or.inr ⟨rfl, rfl, rfl, rfl, rfl⟩))
      · simp [isAddedE, unchangedEntry] at haa
    · simp [isDeletedE, addedEntry] at hdd
    · simp [isDeletedE, unchangedEntry] at hdd

/-! #### Shape of the serialized patch -/

theorem counts_unchanged (e : DiffEntry) (l : List DiffEntry) (he : e.type = "unchanged") :
    countsLeft (e :: l) = countsLeft l + 1 ∧ countsRight (e :: l) = countsRight l + 1 := by
  unfold countsLeft countsRight
  rw [List.countP_cons, List.countP_cons]
  simp [he]

theorem counts_deleted (e : DiffEntry) (l : List DiffEntry) (he : e.type = "deleted") :
    countsLeft (e :: l) = countsLeft l + 1 ∧ countsRight (e :: l) = countsRight l := by
  unfold countsLeft countsRight
  rw [List.countP_cons, List.countP_cons]
  simp [he]

theorem counts_added (e : DiffEntry) (l : List DiffEntry) (he : e.type = "added") :
    countsLeft (e :: l) = countsLeft l ∧ countsRight (e :: l) = countsRight l + 1 := by
  unfold countsLeft countsRight
  rw [List.countP_cons, List.countP_cons]
  simp [he]

theorem counts_modified (e : DiffEntry) (l : List DiffEntry) (he : e.type = "modified") :
    countsLeft (e :: l) = countsLeft l + 1 ∧ countsRight (e :: l) = countsRight l + 1 := by
  unfold countsLeft countsRight
  rw [List.countP_cons, List.countP_cons]
  simp [he]

theorem epl_unchanged (e : DiffEntry) (he : e.type = "unchanged") :
    entryPatchLines e = [" " ++ e.leftLine.getD ""] := by
  simp [entryPatchLines, he]

theorem epl_deleted (e : DiffEntry) (he : e.type = "deleted") :
    entryPatchLines e = ["-" ++ e.leftLine.getD ""] := by
  simp [entryPatchLines, he]

theorem epl_added (e : DiffEntry) (he : e.type = "added") :
    entryPatchLines e = ["+" ++ e.rightLine.getD ""] := by
  simp [entryPatchLines, he]

theorem epl_modified (e : DiffEntry) (he : e.type = "modified") :
    entryPatchLines e = ["-" ++ e.leftLine.getD "", "+" ++ e.rightLine.getD ""] := by
  simp [entryPatchLines, he]

theorem patch_fold_pre (l : List DiffEntry) :
    ∀ st : PatchState, (∀ e ∈ l, e.type = "unchanged") → st.currentHunk = [] →
      l.foldl patchStep st = { st with
                                leftLineNum := st.leftLineNum + l.length,
                                rightLineNum := st.rightLineNum + l.length } := by
  induction l with
  | nil =>
    intro st _ _
    simp
  | cons e rest ih =>
    intro st hall hch
    rw [List.foldl_cons]
    have hstep : patchStep st e = { st with
                                      leftLineNum := st.leftLineNum + 1,
                                      rightLineNum := st.rightLineNum + 1 } := by
      simp only [patchStep, hall e (List.mem_cons_self _ _)]
      simp [hch]
    rw [hstep, ih _ (fun x hx => hall x (List.mem_cons_of_mem _ hx)) (by exact hch)]
    simp only [PatchState.mk.injEq, List.length_cons]
    repeat' apply And.intro
    all_goals first | rfl | trivial | omega

theorem patch_fold_open (l : List DiffEntry) :
    ∀ st : PatchState, (∀ e ∈ l, validType e = true) → st.currentHunk ≠ [] →
      l.foldl patchStep st = { st with
                                leftLineNum := st.leftLineNum + countsLeft l,
                                rightLineNum := st.rightLineNum + countsRight l,
                                currentHunk := st.currentHunk ++ l.flatMap entryPatchLines,
                                hunkLeftCount := st.hunkLeftCount + countsLeft l,
                                hunkRightCount := st.hunkRightCount + countsRight l } := by
  induction l with
  | nil =>
    intro st _ _
    simp [countsLeft, countsRight]
  | cons e rest ih =>
    intro st hval hch
    rw [List.foldl_cons]
    have hlen : st.currentHunk.length > 0 := List.length_pos.mpr hch
    have hv := hval e (List.mem_cons_self _ _)
    simp only [validType, Bool.or_eq_true, beq_iff_eq] at hv
    have hrest : ∀ x ∈ rest, validType x = true :=
      fun x hx => hval x (List.mem_cons_of_mem _ hx)
    rcases hv with ((h1 | h2) | h3) | h4
    · -- unchanged inside an open hunk: a context line
      have hstep : patchStep st e = { st with
                                        leftLineNum := st.leftLineNum + 1,
                                        rightLineNum := st.rightLineNum + 1,
                                        currentHunk := st.currentHunk ++ [" " ++ e.leftLine.getD ""],
                                        hunkLeftCount := st.hunkLeftCount + 1,
                                        hunkRightCount := st.hunkRightCount + 1 } := by
        simp only [patchStep, h1]
        simp [if_pos hlen]
      rw [hstep, ih _ hrest (by simp [hch])]
      rw [List.flatMap_cons, epl_unchanged e h1]
      obtain ⟨hcl, hcr⟩ := counts_unchanged e rest h1
      simp only [PatchState.mk.injEq, hcl, hcr, List.append_assoc, List.singleton_append]
      repeat' apply And.intro
      all_goals first | rfl | trivial | omega
    · -- deleted
      have hstep : patchStep st e = { st with
                                        leftLineNum := st.leftLineNum + 1,
                                        currentHunk := st.currentHunk ++ ["-" ++ e.leftLine.getD ""],
                                        hunkLeftCount := st.hunkLeftCount + 1 } := by
        simp only [patchStep, h2]
        simp [hch]
      rw [hstep, ih _ hrest (by simp [hch])]
      rw [List.flatMap_cons, epl_deleted e h2]
      obtain ⟨hcl, hcr⟩ := counts_deleted e rest h2
      simp only [PatchState.mk.injEq, hcl, hcr, List.append_assoc, List.singleton_append]
      repeat' apply And.intro
      all_goals first | rfl | trivial | omega
    · -- added
      have hstep : patchStep st e = { st with
                                        rightLineNum := st.rightLineNum + 1,
                                        currentHunk := st.currentHunk ++ ["+" ++ e.rightLine.getD ""],
                                        hunkRightCount := st.hunkRightCount + 1 } := by
        simp only [patchStep, h3]
        simp [hch]
      rw [hstep, ih _ hrest (by simp [hch])]
      rw [List.flatMap_cons, epl_added e h3]
      obtain ⟨hcl, hcr⟩ := counts_added e rest h3
      simp only [PatchState.mk.injEq, hcl, hcr, List.append_assoc, List.singleton_append]
      repeat' apply And.intro
      all_goals first | rfl | trivial | omega
    · -- modified
      have hstep : patchStep st e = { st with
                                        leftLineNum := st.leftLineNum + 1,
                                        rightLineNum := st.rightLineNum + 1,
                                        currentHunk := st.currentHunk ++
                                          ["-" ++ e.leftLine.getD "", "+" ++ e.rightLine.getD ""],
                                        hunkLeftCount := st.hunkLeftCount + 1,
                                        hunkRightCount := st.hunkRightCount + 1 } := by
        simp only [patchStep, h4]
        simp [hch]
      rw [hstep, ih _ hrest (by simp [hch])]
      rw [List.flatMap_cons, epl_modified e h4]
      obtain ⟨hcl, hcr⟩ := counts_modified e rest h4
      simp only [PatchState.mk.injEq, hcl, hcr, List.append_assoc, List.cons_append,
        List.singleton_append]
      repeat' apply And.intro
      all_goals first | rfl | trivial | omega

theorem head_dropWhile_false {α : Type} (p : α → Bool) :
    ∀ (l : List α) (e : α) (rest : List α), l.dropWhile p = e :: rest → p e = false := by
  intro l
  induction l with
  | nil => intro e rest h; simp at h
  | cons a t ih =>
    intro e rest h
    rw [List.dropWhile_cons] at h
    by_cases hp : p a = true
    · rw [if_pos hp] at h
      exact ih e rest h
    · rw [if_neg hp] at h
      injection h with h1 _
      subst h1
      simpa using hp

/-- The serialized patch is the two headers followed by the single hunk of
`patchTailSpec`. -/
theorem generateUnifiedPatchLines_eq (L R : List String) (a b : String) :
    generateUnifiedPatchLines L R a b =
      ("--- " ++ a) :: ("+++ " ++ b) :: patchTailSpec (computeLineDiff L R {}) := by
  unfold generateUnifiedPatchLines patchTailSpec
  have hval := computeLineDiff_validType L R {}
  set d := computeLineDiff L R {} with hd
  have hsplit : (d.takeWhile (fun e => e.type == "unchanged")) ++
      (d.dropWhile (fun e => e.type == "unchanged")) = d :=
    List.takeWhile_append_dropWhile _ _
  have hfold : d.foldl patchStep
      { leftLineNum := 1, rightLineNum := 1, currentHunk := [],
        hunkLeftStart := 0, hunkRightStart := 0, hunkLeftCount := 0, hunkRightCount := 0 } =
      (d.dropWhile (fun e => e.type == "unchanged")).foldl patchStep
        ((d.takeWhile (fun e => e.type == "unchanged")).foldl patchStep
          { leftLineNum := 1, rightLineNum := 1, currentHunk := [],
            hunkLeftStart := 0, hunkRightStart := 0,
            hunkLeftCount := 0, hunkRightCount := 0 }) := by
    rw [← List.foldl_append, hsplit]
  have hpre : (d.takeWhile (fun e => e.type == "unchanged")).foldl patchStep
      { leftLineNum := 1, rightLineNum := 1, currentHunk := [],
        hunkLeftStart := 0, hunkRightStart := 0, hunkLeftCount := 0, hunkRightCount := 0 } =
      { leftLineNum := 1 + (d.takeWhile (fun e => e.type == "unchanged")).length,
        rightLineNum := 1 + (d.takeWhile (fun e => e.type == "unchanged")).length,
        currentHunk := [], hunkLeftStart := 0, hunkRightStart := 0,
        hunkLeftCount := 0, hunkRightCount := 0 } := by
    rw [patch_fold_pre _ _
      (fun e he => by simpa using List.mem_takeWhile_imp he) rfl]
  rw [hfold, hpre]
  cases hsuf : d.dropWhile (fun e => e.type == "unchanged") with
  | nil =>
    rw [List.foldl_nil]
    rfl
  | cons e suf' =>
    have hne : (e.type == "unchanged") = false := head_dropWhile_false _ d e suf' hsuf
    have hemem : e ∈ d := by
      have : e ∈ d.dropWhile (fun x => x.type == "unchanged") := by
        rw [hsuf]
        exact List.mem_cons_self _ _
      exact (List.dropWhile_sublist _).subset this
    have hsufmem : ∀ x ∈ suf', x ∈ d := by
      intro x hx
      have : x ∈ d.dropWhile (fun y => y.type == "unchanged") := by
        rw [hsuf]
        exact List.mem_cons_of_mem _ hx
      exact (List.dropWhile_sublist _).subset this
    have hv := hval e hemem
    simp only [validType, Bool.or_eq_true, beq_iff_eq] at hv
    rcases hv with ((h1 | h2) | h3) | h4
    · rw [h1] at hne
      simp at hne
    all_goals {
      rw [List.foldl_cons]
      first
      | (rw [show patchStep
            { leftLineNum := 1 + (d.takeWhile (fun e => e.type == "unchanged")).length,
              rightLineNum := 1 + (d.takeWhile (fun e => e.type == "unchanged")).length,
              currentHunk := [], hunkLeftStart := 0, hunkRightStart := 0,
              hunkLeftCount := 0, hunkRightCount := 0 } e = {
              leftLineNum := 1 + (d.takeWhile (fun e => e.type == "unchanged")).length +
                countsLeft [e],
              rightLineNum := 1 + (d.takeWhile (fun e => e.type == "unchanged")).length +
                countsRight [e],
              currentHunk := entryPatchLines e,
              hunkLeftStart :=
                e.leftLineNum.getD (1 + (d.takeWhile (fun e => e.type == "unchanged")).length),
              hunkRightStart :=
                e.rightLineNum.getD (1 + (d.takeWhile (fun e => e.type == "unchanged")).length),
              hunkLeftCount := countsLeft [e], hunkRightCount := countsRight [e] } from by
          first
          | (simp only [patchStep, h2]
             simp [countsLeft, countsRight, List.countP_cons, h2, epl_deleted e h2])
          | (simp only [patchStep, h3]
             simp [countsLeft, countsRight, List.countP_cons, h3, epl_added e h3])
          | (simp only [patchStep, h4]
             simp [countsLeft, countsRight, List.countP_cons, h4, epl_modified e h4])])
      rw [patch_fold_open suf' _ (fun x hx => hval x (hsufmem x hx))
        (by
          first
          | simp [epl_deleted e h2]
          | simp [epl_added e h3]
          | simp [epl_modified e h4])]
      have hchne : (entryPatchLines e ++ suf'.flatMap entryPatchLines).length > 0 := by
        first
        | simp [epl_deleted e h2]
        | simp [epl_added e h3]
        | simp [epl_modified e h4]
      simp only []
      rw [if_pos hchne]
      unfold rangeLine
      have hcl : countsLeft [e] + countsLeft suf' = countsLeft (e :: suf') := by
        unfold countsLeft
        rw [List.countP_cons, List.countP_cons, List.countP_nil]
        omega
      have hcr : countsRight [e] + countsRight suf' = countsRight (e :: suf') := by
        unfold countsRight
        rw [List.countP_cons, List.countP_cons, List.countP_nil]
        omega
      simp only [List.flatMap_cons]
      rw [show (1 + (d.takeWhile (fun e => e.type == "unchanged")).length) =
        ((d.takeWhile (fun e => e.type == "unchanged")).length + 1) from by omega]
      rw [hcl, hcr]
    }

/-! #### Decimal digits round-trip -/

theorem digitChar_spec (m : Nat) (h : m < 10) :
    isDigitChar (Nat.digitChar m) = true ∧ (Nat.digitChar m).toNat - 48 = m := by
  interval_cases m <;> exact ⟨by decide, by decide⟩

theorem natDigitsAux_spec :
    ∀ f n, n < f →
      (natDigitsAux f n).all isDigitChar = true ∧ natDigitsAux f n ≠ [] ∧
      (natDigitsAux f n).foldl (fun a c => a * 10 + (c.toNat - 48)) 0 = n := by
  intro f
  induction f with
  | zero => intro n h; omega
  | succ f ih =>
    intro n h
    have hunf : natDigitsAux (f+1) n = if n < 10 then [Nat.digitChar n]
        else natDigitsAux f (n / 10) ++ [Nat.digitChar (n % 10)] := rfl
    rw [hunf]
    by_cases h10 : n < 10
    · rw [if_pos h10]
      obtain ⟨hd1, hd2⟩ := digitChar_spec n h10
      refine ⟨by simp [hd1], by simp, ?_⟩
      simp [List.foldl_cons, hd2]
    · rw [if_neg h10]
      have hlt : n / 10 < n := Nat.div_lt_self (by omega) (by omega)
      obtain ⟨iha, ihne, ihval⟩ := ih (n / 10) (by omega)
      obtain ⟨hd1, hd2⟩ := digitChar_spec (n % 10) (Nat.mod_lt _ (by omega))
      refine ⟨?_, by simp, ?_⟩
      · rw [List.all_append, iha]
        simp [hd1]
      · rw [List.foldl_append, ihval, List.foldl_cons, List.foldl_nil, hd2]
        omega

theorem natRepr_data (n : Nat) : (natRepr n).data = natDigitsAux (n + 1) n := rfl

theorem natRepr_digits (n : Nat) :
    (natRepr n).data.all isDigitChar = true ∧ (natRepr n).data ≠ [] ∧
    (natRepr n).data.foldl (fun a c => a * 10 + (c.toNat - 48)) 0 = n := by
  rw [natRepr_data]
  exact natDigitsAux_spec (n + 1) n (Nat.lt_succ_self n)

theorem parseNatChars_natRepr (n : Nat) : parseNatChars (natRepr n).data = some n := by
  obtain ⟨h1, h2, h3⟩ := natRepr_digits n
  unfold parseNatChars
  rw [if_pos ⟨h2, h1⟩, h3]

theorem comma_not_digit : isDigitChar ',' = false := by decide

/-- Parsing the left start back out of a generated range line. -/
theorem parseHunkStart_rangeLine (A B C D : Nat) :
    parseHunkStart ("@@ -" ++ natRepr A ++ "," ++ natRepr B ++ " +" ++ natRepr C ++ "," ++
      natRepr D ++ " @@") = some A := by
  unfold parseHunkStart
  have hdata : ("@@ -" ++ natRepr A ++ "," ++ natRepr B ++ " +" ++ natRepr C ++ "," ++
      natRepr D ++ " @@").data =
      '@' :: '@' :: ' ' :: '-' :: ((natRepr A).data ++ (',' ::
        ((natRepr B).data ++ (' ' :: '+' ::
          ((natRepr C).data ++ (',' :: ((natRepr D).data ++ [' ', '@', '@']))))))) := by
    simp only [String.data_append, List.append_assoc]
    rfl
  rw [hdata]
  show parseNatChars ((((natRepr A).data ++ (',' ::
        ((natRepr B).data ++ (' ' :: '+' ::
          ((natRepr C).data ++ (',' :: ((natRepr D).data ++
            [' ', '@', '@']))))))).takeWhile isDigitChar)) = some A
  rw [List.takeWhile_append_of_pos (fun c hc => by
    have := (natRepr_digits A).1
    rw [List.all_eq_true] at this
    exact this c hc)]
  rw [List.takeWhile_cons_of_neg (by rw [comma_not_digit]; simp), List.append_nil]
  exact parseNatChars_natRepr A

theorem isHunkHeaderLine_rangeLine (A B C D : Nat) :
    isHunkHeaderLine ("@@ -" ++ natRepr A ++ "," ++ natRepr B ++ " +" ++ natRepr C ++ "," ++
      natRepr D ++ " @@") = true := by
  unfold isHunkHeaderLine
  rw [show ("@@ -" ++ natRepr A ++ "," ++ natRepr B ++ " +" ++ natRepr C ++ "," ++
      natRepr D ++ " @@").data =
      '@' :: '@' :: ' ' :: '-' :: ((natRepr A).data ++ (',' ::
        ((natRepr B).data ++ (' ' :: '+' ::
          ((natRepr C).data ++ (',' :: ((natRepr D).data ++ [' ', '@', '@']))))))) from by
    simp only [String.data_append, List.append_assoc]
    rfl]
  rfl

theorem isHunkHeaderLine_space (x : String) : isHunkHeaderLine (" " ++ x) = false := by
  cases x with
  | mk cs => rfl

theorem isHunkHeaderLine_dash (x : String) : isHunkHeaderLine ("-" ++ x) = false := by
  cases x with
  | mk cs => rfl

theorem isHunkHeaderLine_plus (x : String) : isHunkHeaderLine ("+" ++ x) = false := by
  cases x with
  | mk cs => rfl

theorem entryPatchLines_not_header (e : DiffEntry) :
    ∀ b ∈ entryPatchLines e, isHunkHeaderLine b = false := by
  intro b hb
  unfold entryPatchLines at hb
  by_cases h1 : e.type == "unchanged"
  · rw [if_pos h1] at hb
    rw [List.mem_singleton] at hb
    subst hb
    exact isHunkHeaderLine_space _
  · rw [if_neg h1] at hb
    by_cases h2 : e.type == "deleted"
    · rw [if_pos h2, List.mem_singleton] at hb
      subst hb
      exact isHunkHeaderLine_dash _
    · rw [if_neg h2] at hb
      by_cases h3 : e.type == "added"
      · rw [if_pos h3, List.mem_singleton] at hb
        subst hb
        exact isHunkHeaderLine_plus _
      · rw [if_neg h3] at hb
        by_cases h4 : e.type == "modified"
        · rw [if_pos h4, List.mem_cons, List.mem_singleton] at hb
          rcases hb with rfl | rfl
          · exact isHunkHeaderLine_dash _
          · exact isHunkHeaderLine_plus _
        · rw [if_neg h4] at hb
          simp at hb

theorem parseHunks_single (rng : String) (body : List String) (s : Nat)
    (hrng : isHunkHeaderLine rng = true) (hstart : parseHunkStart rng = some s)
    (hbody : ∀ b ∈ body, isHunkHeaderLine b = false) :
    parseHunks (rng :: body) = some [(s, body)] := by
  unfold parseHunks
  show parseHunksF (body.length + 1) (rng :: body) = _
  have htw : body.takeWhile (fun x => !isHunkHeaderLine x) = body :=
    List.takeWhile_eq_self_iff.mpr (fun x hx => by rw [hbody x hx]; rfl)
  have hdw : body.dropWhile (fun x => !isHunkHeaderLine x) = [] :=
    List.dropWhile_eq_nil_iff.mpr (fun x hx => by rw [hbody x hx]; rfl)
  simp only [parseHunksF, hrng, if_true, hstart, htw, hdw]

/-! #### Processing a hunk body -/

theorem string_mk_data (s : String) : String.mk s.data = s := by
  cases s
  rfl

theorem processBody_space (lv : String) (rest rem out : List String) :
    processBody ((" " ++ lv) :: rest) (lv :: rem) out = processBody rest rem (out ++ [lv]) := by
  have hd : (" " ++ lv).data = ' ' :: lv.data := by
    rw [String.data_append]
    rfl
  conv_lhs => rw [processBody.eq_def]
  simp only []
  rw [hd]
  simp

theorem processBody_dash (lv : String) (rest rem out : List String) :
    processBody (("-" ++ lv) :: rest) (lv :: rem) out = processBody rest rem out := by
  have hd : ("-" ++ lv).data = '-' :: lv.data := by
    rw [String.data_append]
    rfl
  conv_lhs => rw [processBody.eq_def]
  simp only []
  rw [hd]
  simp

theorem processBody_plus (rv : String) (rest rem out : List String) :
    processBody (("+" ++ rv) :: rest) rem out = processBody rest rem (out ++ [rv]) := by
  have hd : ("+" ++ rv).data = '+' :: rv.data := by
    rw [String.data_append]
    rfl
  conv_lhs => rw [processBody.eq_def]
  simp only []
  rw [hd]
  simp [string_mk_data]

/-- Processing the body lines of a diff suffix consumes exactly its left
lines and emits exactly its right lines. -/
theorem processBody_spec :
    ∀ (sf : List DiffEntry), (∀ e ∈ sf, WFEntry e) →
      (∀ e ∈ sf, e.type = "unchanged" → e.leftLine = e.rightLine) →
      ∀ (tl out : List String),
        processBody (sf.flatMap entryPatchLines)
            ((sf.filterMap (fun e => e.leftLine)) ++ tl) out =
          some (tl, out ++ sf.filterMap (fun e => e.rightLine)) := by
  intro sf
  induction sf with
  | nil =>
    intro _ _ tl out
    simp [processBody]
  | cons e sf' ih =>
    intro hwf hunch tl out
    have hwfe := hwf e (List.mem_cons_self _ _)
    have hwf' : ∀ x ∈ sf', WFEntry x := fun x hx => hwf x (List.mem_cons_of_mem _ hx)
    have hunch' : ∀ x ∈ sf', x.type = "unchanged" → x.leftLine = x.rightLine :=
      fun x hx => hunch x (List.mem_cons_of_mem _ hx)
    rw [List.flatMap_cons]
    rcases hwfe with ⟨ht, hl, hln, hr, hrn⟩ | ⟨ht, hl, hln, hr, hrn⟩ |
      ⟨ht, hl, hln, hr, hrn⟩ | ⟨ht, hl, hln, hr, hrn⟩
    · -- unchanged: one context line, consumes one left line, emits it
      rcases Option.isSome_iff_exists.mp hl with ⟨lv, hlv⟩
      rcases Option.isSome_iff_exists.mp hr with ⟨rv, hrv⟩
      have hlr : lv = rv := by
        have h := hunch e (List.mem_cons_self _ _) ht
        rw [hlv, hrv] at h
        injection h
      rw [epl_unchanged e ht, List.singleton_append,
        List.filterMap_cons_some (show (fun x : DiffEntry => x.leftLine) e = some lv from hlv),
        List.filterMap_cons_some (show (fun x : DiffEntry => x.rightLine) e = some rv from hrv),
        hlv]
      rw [show (some lv).getD "" = lv from rfl]
      simp only [List.cons_append, List.nil_append]
      rw [processBody_space, ih hwf' hunch' tl (out ++ [lv])]
      rw [hlr, List.append_assoc, List.singleton_append]
    · -- deleted: one minus line, consumes one left line
      rcases Option.isSome_iff_exists.mp hl with ⟨lv, hlv⟩
      rw [epl_deleted e ht, List.singleton_append,
        List.filterMap_cons_some (show (fun x : DiffEntry => x.leftLine) e = some lv from hlv),
        List.filterMap_cons_none (show (fun x : DiffEntry => x.rightLine) e = none from hr),
        hlv]
      rw [show (some lv).getD "" = lv from rfl]
      rw [List.cons_append]
      rw [processBody_dash, ih hwf' hunch' tl out]
    · -- added: one plus line, emits one right line
      rcases Option.isSome_iff_exists.mp hr with ⟨rv, hrv⟩
      rw [epl_added e ht, List.singleton_append,
        List.filterMap_cons_none (show (fun x : DiffEntry => x.leftLine) e = none from hl),
        List.filterMap_cons_some (show (fun x : DiffEntry => x.rightLine) e = some rv from hrv),
        hrv]
      rw [show (some rv).getD "" = rv from rfl]
      rw [processBody_plus, ih hwf' hunch' tl (out ++ [rv])]
      rw [List.append_assoc, List.singleton_append]
    · -- modified: a minus line then a plus line
      rcases Option.isSome_iff_exists.mp hl with ⟨lv, hlv⟩
      rcases Option.isSome_iff_exists.mp hr with ⟨rv, hrv⟩
      rw [epl_modified e ht,
        List.filterMap_cons_some (show (fun x : DiffEntry => x.leftLine) e = some lv from hlv),
        List.filterMap_cons_some (show (fun x : DiffEntry => x.rightLine) e = some rv from hrv),
        hlv, hrv]
      rw [show (some lv).getD "" = lv from rfl, show (some rv).getD "" = rv from rfl]
      simp only [List.cons_append, List.nil_append]
      rw [processBody_dash, processBody_plus, ih hwf' hunch' tl (out ++ [rv])]
      rw [List.append_assoc, List.singleton_append]

/-! #### The round trip of the serialized patch -/

/-- With default options an unchanged entry carries the same line on both
sides: the matcher pairs equal keys and the default preprocessing is the
identity. -/
theorem computeLineDiff_unchanged_pair (L R : List String) :
    ∀ e ∈ computeLineDiff L R {}, e.type = "unchanged" → e.leftLine = e.rightLine := by
  intro e he ht
  rcases mergeDiff_mem _ e he with h | ⟨d0, hd0, a0, ha0, hdd, haa, rfl⟩
  · rcases buildRaw_mem _ _ _ _ _ _ _ e h with ⟨i, rfl⟩ | ⟨j, rfl⟩ | ⟨mt, hmt, rfl⟩
    · simp [deletedEntry] at ht
    · simp [addedEntry] at ht
    · obtain ⟨-, -, hmem⟩ := computeLCS_struct ((filteredLines {} L).map (processLine {}))
        ((filteredLines {} R).map (processLine {}))
      obtain ⟨hlb, hrb, hveq1, hveq2⟩ := hmem mt hmt
      have hmapL : (filteredLines {} L).map (processLine {}) = L := map_processLine_default L
      have hmapR : (filteredLines {} R).map (processLine {}) = R := map_processLine_default R
      rw [hmapL] at hveq1
      rw [hmapR] at hveq2
      show some (L.getD mt.leftIndex "") = some (R.getD mt.rightIndex "")
      rw [hveq1, hveq2]
  · simp [modifiedOf] at ht

theorem applyPatchLines_cons_cons (h1 h2 : String) (rest left : List String) :
    applyPatchLines (h1 :: h2 :: rest) left =
      match parseHunks rest with
      | some hs => applyHunks hs left 0 []
      | none => none := rfl

/-- Applying the generated patch to the left lines reproduces the right
lines. -/
theorem patch_roundtrip (L R : List String) (a b : String) :
    applyPatchLines (generateUnifiedPatchLines L R a b) L = some R := by
  rw [generateUnifiedPatchLines_eq]
  have hWF := computeLineDiff_WF L R {}
  have hpair := computeLineDiff_unchanged_pair L R
  have hleft : (computeLineDiff L R {}).filterMap (fun e => e.leftLine) = L :=
    computeLineDiff_filterMap_leftLine L R {}
  have hright : (computeLineDiff L R {}).filterMap (fun e => e.rightLine) = R :=
    computeLineDiff_filterMap_rightLine L R {}
  have hleftN : (computeLineDiff L R {}).filterMap (fun e => e.leftLineNum) =
      (List.range L.length).map (· + 1) := computeLineDiff_filterMap_leftNum L R {}
  set d := computeLineDiff L R {} with hd
  have hsplit : d.takeWhile (fun e => e.type == "unchanged") ++
      d.dropWhile (fun e => e.type == "unchanged") = d :=
    List.takeWhile_append_dropWhile _ _
  cases hsuf : d.dropWhile (fun e => e.type == "unchanged") with
  | nil =>
    have htail : patchTailSpec d = [] := by
      unfold patchTailSpec
      rw [hsuf]
    rw [htail]
    show applyHunks [] L 0 [] = some R
    have hall : ∀ x ∈ d, x.type = "unchanged" := by
      intro x hx
      simpa using List.dropWhile_eq_nil_iff.mp hsuf x hx
    have hLR : L = R := by
      rw [← hleft, ← hright]
      exact List.filterMap_congr (fun x hx => by rw [hpair x hx (hall x hx)])
    show some ([] ++ L.drop 0) = some R
    rw [List.nil_append, List.drop_zero, hLR]
  | cons e suf' =>
    have hne : (e.type == "unchanged") = false := head_dropWhile_false _ d e suf' hsuf
    have hemem : e ∈ d := by
      have hx : e ∈ d.dropWhile (fun x => x.type == "unchanged") := by
        rw [hsuf]
        exact List.mem_cons_self _ _
      exact (List.dropWhile_sublist _).subset hx
    have hsufsub : ∀ x ∈ e :: suf', x ∈ d := by
      intro x hx
      have hx' : x ∈ d.dropWhile (fun y => y.type == "unchanged") := by
        rw [hsuf]
        exact hx
      exact (List.dropWhile_sublist _).subset hx'
    have hpresub : ∀ x ∈ d.takeWhile (fun e => e.type == "unchanged"), x ∈ d :=
      fun x hx => (List.takeWhile_sublist _).subset hx
    have hpreUn : ∀ x ∈ d.takeWhile (fun e => e.type == "unchanged"), x.type = "unchanged" :=
      fun x hx => by simpa using List.mem_takeWhile_imp hx
    have hpreShape : ∀ x ∈ d.takeWhile (fun e => e.type == "unchanged"),
        x.leftLine.isSome ∧ x.leftLineNum.isSome ∧ x.rightLine.isSome ∧ x.rightLineNum.isSome := by
      intro x hx
      rcases hWF x (hpresub x hx) with ⟨-, h1, h2, h3, h4⟩ | ⟨ht', -⟩ | ⟨ht', -⟩ | ⟨ht', -⟩
      · exact ⟨h1, h2, h3, h4⟩
      all_goals {
        exfalso
        have := hpreUn x hx
        rw [ht'] at this
        simp at this
      }
    -- the unchanged prefix projects onto the first k lines of both sides
    set k := (d.takeWhile (fun e => e.type == "unchanged")).length with hk
    have hsplitL : L = (d.takeWhile (fun e => e.type == "unchanged")).filterMap
        (fun e => e.leftLine) ++ (e :: suf').filterMap (fun e => e.leftLine) := by
      rw [← hleft]
      conv_lhs => rw [← hsplit]
      rw [List.filterMap_append, hsuf]
    have hsplitR : R = (d.takeWhile (fun e => e.type == "unchanged")).filterMap
        (fun e => e.rightLine) ++ (e :: suf').filterMap (fun e => e.rightLine) := by
      rw [← hright]
      conv_lhs => rw [← hsplit]
      rw [List.filterMap_append, hsuf]
    have hlenA : ((d.takeWhile (fun e => e.type == "unchanged")).filterMap
        (fun e => e.leftLine)).length = k :=
      length_filterMap_of_isSome (fun x hx => (hpreShape x hx).1)
    have hlenA' : ((d.takeWhile (fun e => e.type == "unchanged")).filterMap
        (fun e => e.rightLine)).length = k :=
      length_filterMap_of_isSome (fun x hx => (hpreShape x hx).2.2.1)
    have hAtake : (d.takeWhile (fun e => e.type == "unchanged")).filterMap
        (fun e => e.leftLine) = L.take k := by
      rw [hsplitL, ← hlenA, List.take_left]
    have hBdrop : (e :: suf').filterMap (fun e => e.leftLine) = L.drop k := by
      rw [hsplitL, ← hlenA, List.drop_left]
    have hAtake' : (d.takeWhile (fun e => e.type == "unchanged")).filterMap
        (fun e => e.rightLine) = R.take k := by
      rw [hsplitR, ← hlenA', List.take_left]
    have hBdrop' : (e :: suf').filterMap (fun e => e.rightLine) = R.drop k := by
      rw [hsplitR, ← hlenA', List.drop_left]
    have htakeLR : L.take k = R.take k := by
      rw [← hAtake, ← hAtake']
      exact List.filterMap_congr (fun x hx => by rw [hpair x (hpresub x hx) (hpreUn x hx)])
    have hkleL : k ≤ L.length := by
      have := congrArg List.length hsplitL
      rw [List.length_append, hlenA] at this
      omega
    -- the first changed entry's left line number, when present, is k+1
    have hstart_val : e.leftLineNum.getD (k + 1) = k + 1 := by
      cases hln : e.leftLineNum with
      | none => rfl
      | some n =>
        have hnums : (List.range L.length).map (· + 1) =
            (d.takeWhile (fun e => e.type == "unchanged")).filterMap
              (fun e => e.leftLineNum) ++ (e :: suf').filterMap (fun e => e.leftLineNum) := by
          rw [← hleftN]
          conv_lhs => rw [← hsplit]
          rw [List.filterMap_append, hsuf]
        have hlenA2 : ((d.takeWhile (fun e => e.type == "unchanged")).filterMap
            (fun e => e.leftLineNum)).length = k :=
          length_filterMap_of_isSome (fun x hx => (hpreShape x hx).2.1)
        rw [List.filterMap_cons_some
          (show (fun x : DiffEntry => x.leftLineNum) e = some n from hln)] at hnums
        have hklen : k < L.length := by
          have := congrArg List.length hnums
          rw [List.length_map, List.length_range, List.length_append, hlenA2] at this
          simp at this
          omega
        have h1 : ((List.range L.length).map (· + 1))[k]? = some (k + 1) := by
          rw [List.getElem?_map, List.getElem?_range hklen]
          rfl
        have h2 : ((List.range L.length).map (· + 1))[k]? = some n := by
          rw [hnums, List.getElem?_append_right hlenA2.le, hlenA2]
          simp
        have hn : n = k + 1 := (Option.some.inj (h1.symm.trans h2)).symm
        simp [hn]
    -- the serialized tail is a single hunk
    have htail : patchTailSpec d =
        ("@@ -" ++ natRepr (e.leftLineNum.getD (k + 1)) ++ "," ++
            natRepr (countsLeft (e :: suf')) ++ " +" ++
            natRepr (e.rightLineNum.getD (k + 1)) ++ "," ++
            natRepr (countsRight (e :: suf')) ++ " @@") ::
          (e :: suf').flatMap entryPatchLines := by
      unfold patchTailSpec
      simp only []
      rw [hsuf]
    have hbody : ∀ x ∈ (e :: suf').flatMap entryPatchLines, isHunkHeaderLine x = false := by
      intro x hx
      rcases List.mem_flatMap.mp hx with ⟨y, hy, hxy⟩
      exact entryPatchLines_not_header y x hxy
    have hparse := parseHunks_single _ ((e :: suf').flatMap entryPatchLines)
      (e.leftLineNum.getD (k + 1))
      (isHunkHeaderLine_rangeLine (e.leftLineNum.getD (k + 1)) (countsLeft (e :: suf'))
        (e.rightLineNum.getD (k + 1)) (countsRight (e :: suf')))
      (parseHunkStart_rangeLine (e.leftLineNum.getD (k + 1)) (countsLeft (e :: suf'))
        (e.rightLineNum.getD (k + 1)) (countsRight (e :: suf')))
      hbody
    rw [htail, applyPatchLines_cons_cons, hparse]
    show applyHunks [(e.leftLineNum.getD (k + 1), (e :: suf').flatMap entryPatchLines)]
      L 0 [] = some R
    rw [hstart_val]
    unfold applyHunks
    rw [if_pos (⟨by omega, by omega⟩ : 0 + 1 ≤ k + 1 ∧ k + 1 ≤ L.length + 1)]
    simp only [Nat.add_sub_cancel, Nat.sub_zero, List.drop_zero, List.nil_append]
    have hremEq : L.drop k = (e :: suf').filterMap (fun x => x.leftLine) ++ ([] : List String) := by
      rw [List.append_nil]
      exact hBdrop.symm
    rw [hremEq, processBody_spec (e :: suf')
      (fun x hx => hWF x (hsufsub x hx))
      (fun x hx => hpair x (hsufsub x hx)) [] (L.take k)]
    show some ((L.take k ++ (e :: suf').filterMap (fun x => x.rightLine)) ++
      L.drop L.length) = some R
    rw [List.drop_length, List.append_nil, hBdrop', htakeLR, List.take_append_drop]

/-! ### Remaining helper lemmas -/

theorem getD_range {n t : Nat} (h : t < n) : (List.range n).getD t 0 = t := by
  rw [List.getD_eq_getElem?_getD, List.getElem?_range h]
  rfl

/-- In a strictly increasing list every value occurs at most once. -/
theorem count_of_pairwise_lt {l : List Nat} (h : l.Pairwise (· < ·)) (n : Nat) :
    l.count n = if n ∈ l then 1 else 0 := by
  have hnd : l.Nodup := h.imp (fun hab => Nat.ne_of_lt hab)
  by_cases hm : n ∈ l
  · rw [if_pos hm, List.count_eq_one_of_mem hnd hm]
  · rw [if_neg hm, List.count_eq_zero_of_not_mem hm]

theorem survivingNums_pairwise (o : ComparisonOptions) (L : List String) :
    (survivingNums o L).Pairwise (· < ·) :=
  List.Pairwise.map _ (fun a b h => by omega) (lineMapping_pairwise o L)

/-- On a nonempty delete run the guard of the merge branch is redundant:
when the add run is empty the zip and its drop terms collapse back to the
delete run. -/
theorem mergeRuns_eq_of_ne_nil (ds as : List DiffEntry) (hne : ds ≠ []) :
    mergeRuns ds as =
      List.zipWith modifiedOf ds as ++ ds.drop as.length ++ as.drop ds.length := by
  unfold mergeRuns
  by_cases ha : as = []
  · subst ha
    rw [if_neg (by simp)]
    simp
  · rw [if_pos ⟨List.length_pos.mpr hne, List.length_pos.mpr ha⟩]

theorem rawDiff_left_nil (R : List String) :
    rawDiff [] R {} = (List.range' 0 R.length).map (addedEntry R (List.range R.length)) := by
  show buildRaw [] R [] (List.range R.length) 0 0
    (computeLCS [] (R.map (processLine {}))) = _
  rw [computeLCS_eq_backtrack]
  show buildRaw [] R [] (List.range R.length) 0 0
    (backtrack [] (R.map (processLine {})) 0 (R.map (processLine {})).length) = _
  rw [backtrack_zero_left]
  rfl

theorem rawDiff_right_nil (L : List String) :
    rawDiff L [] {} = (List.range' 0 L.length).map (deletedEntry L (List.range L.length)) := by
  show buildRaw L [] (List.range L.length) [] 0 0
    (computeLCS (L.map (processLine {})) []) = _
  rw [computeLCS_eq_backtrack]
  show buildRaw L [] (List.range L.length) [] 0 0
    (backtrack (L.map (processLine {})) [] (L.map (processLine {})).length 0) = _
  rw [backtrack_zero_right]
  show (List.range' 0 L.length).map (deletedEntry L (List.range L.length)) ++ [] = _
  rw [List.append_nil]

theorem computeLineDiff_left_nil (R : List String) :
    computeLineDiff [] R {} =
      (List.range' 0 R.length).map (addedEntry R (List.range R.length)) := by
  unfold computeLineDiff
  rw [rawDiff_left_nil]
  exact mergeDiff_of_no_deleted (fun e he => by
    rcases List.mem_map.mp he with ⟨t, ht, rfl⟩
    rfl)

theorem computeLineDiff_right_nil (L : List String) :
    computeLineDiff L [] {} =
      (List.range' 0 L.length).map (deletedEntry L (List.range L.length)) := by
  unfold computeLineDiff
  rw [rawDiff_right_nil]
  exact mergeDiff_of_all_deleted (fun e he => by
    rcases List.mem_map.mp he with ⟨t, ht, rfl⟩
    rfl)

/-- Diffing a list against itself: the matcher matches everything on the
diagonal and the emission is one unchanged entry per line. -/
theorem computeLineDiff_diag (L : List String) :
    computeLineDiff L L {} = (List.range L.length).map
      (fun t => unchangedEntry L L (List.range L.length) (List.range L.length) t t) := by
  unfold computeLineDiff rawDiff
  rw [filteredLines_default, lineMapping_default, map_processLine_default,
    computeLCS_eq_backtrack, backtrack_diag]
  have harg : (List.range L.length).map
      (fun t => ({ leftIndex := t, rightIndex := t, value := L.getD t "" } : LcsMatch)) =
      (List.range' 0 L.length).map
      (fun t => ({ leftIndex := t, rightIndex := t, value := L.getD t "" } : LcsMatch)) := by
    rw [List.range_eq_range']
  have hnd : ∀ e ∈ (List.range' 0 L.length).map
      (fun t => unchangedEntry L L (List.range L.length) (List.range L.length) t t),
      isDeletedE e = false := by
    intro e he
    rcases List.mem_map.mp he with ⟨t, ht, rfl⟩
    rfl
  rw [harg, buildRaw_diag L L.length 0 (Nat.zero_add _), mergeDiff_of_no_deleted hnd,
    ← List.range_eq_range']

/-! ## The claims -/

/-- C1: for every pair of input line lists and every options setting, each
surviving left-line index (1-based original numbering, blank lines dropped by
ignoreBlankLines excluded) occurs as the leftLineNum of exactly one entry of
the merged output, and each surviving right-line index as the rightLineNum of
exactly one entry; an index that does not survive occurs in none. -/
theorem c1_partition (L R : List String) (o : ComparisonOptions) (n : Nat) :
    ((computeLineDiff L R o).countP (fun e => e.leftLineNum == some n) =
      if n ∈ survivingNums o L then 1 else 0) ∧
    ((computeLineDiff L R o).countP (fun e => e.rightLineNum == some n) =
      if n ∈ survivingNums o R then 1 else 0) := by
  constructor
  · rw [countP_eq_count_filterMap (fun e : DiffEntry => e.leftLineNum) n,
      computeLineDiff_filterMap_leftNum]
    exact count_of_pairwise_lt (survivingNums_pairwise o L) n
  · rw [countP_eq_count_filterMap (fun e : DiffEntry => e.rightLineNum) n,
      computeLineDiff_filterMap_rightNum]
    exact count_of_pairwise_lt (survivingNums_pairwise o R) n

/-- C2: diffing a line list against itself with default options yields
exactly one entry per line, in order, each of type unchanged and carrying
that line with matching 1-based numbers on both sides. -/
theorem c2_identical_texts (L : List String) :
    computeLineDiff L L {} = (List.range L.length).map (fun t =>
      ({ type := "unchanged", leftLine := some (L.getD t ""), leftLineNum := some (t + 1),
         rightLine := some (L.getD t ""), rightLineNum := some (t + 1) } : DiffEntry)) := by
  rw [computeLineDiff_diag]
  apply List.map_congr_left
  intro t ht
  rw [List.mem_range] at ht
  unfold unchangedEntry
  rw [getD_range ht]

/-- C3: `computeLCS` returns index pairs strictly increasing on both sides,
in bounds, pairing only equal keys; the matched values form a common
subsequence no common subsequence exceeds in length; and the result is
exactly the one picked by the spec's backtracking policy (diagonal on equal
keys, otherwise toward the larger neighboring table value, ties decrementing
the right index). -/
theorem c3_lcs_correct (left right : List String) :
    (computeLCS left right).Pairwise
      (fun a b => a.leftIndex < b.leftIndex ∧ a.rightIndex < b.rightIndex) ∧
    (∀ mt ∈ computeLCS left right, mt.leftIndex < left.length ∧ mt.rightIndex < right.length ∧
      left.getD mt.leftIndex "" = mt.value ∧ right.getD mt.rightIndex "" = mt.value) ∧
    ((computeLCS left right).map (fun mt => mt.value)).Sublist left ∧
    ((computeLCS left right).map (fun mt => mt.value)).Sublist right ∧
    (∀ s : List String, s.Sublist left → s.Sublist right →
      s.length ≤ (computeLCS left right).length) ∧
    computeLCS left right = lcsBacktrackSpec left right := by
  obtain ⟨hlen, hpw, hmem⟩ := computeLCS_struct left right
  obtain ⟨hsl, hsr⟩ := computeLCS_common left right
  exact ⟨hpw, hmem, hsl, hsr, computeLCS_longest left right, computeLCS_eq_spec left right⟩

/-- C4: a maximal run of deletes followed by a maximal run of adds merges to
position-wise modified pairs up to the shorter run length, then the excess of
the longer run, in order, with the rest of the scan continuing behind it; and
every entry that is not a delete — an add not preceded by a delete run, or an
unchanged entry — passes through unchanged, which carries the scan to runs at
arbitrary positions. -/
theorem c4_merge_runs (ds as rest : List DiffEntry)
    (hds : ∀ e ∈ ds, isDeletedE e = true) (hne : ds ≠ [])
    (has : ∀ e ∈ as, isAddedE e = true)
    (hrest_add : ∀ e, rest.head? = some e → isAddedE e = false)
    (hrest_del : as = [] → ∀ e, rest.head? = some e → isDeletedE e = false) :
    mergeDiff (ds ++ as ++ rest) =
      (List.zipWith modifiedOf ds as ++ ds.drop as.length ++ as.drop ds.length) ++
        mergeDiff rest ∧
    ∀ (e : DiffEntry) (l : List DiffEntry), isDeletedE e = false →
      mergeDiff (e :: l) = e :: mergeDiff l := by
  constructor
  · rw [mergeDiff_run ds as rest hds hne has hrest_add hrest_del,
      mergeRuns_eq_of_ne_nil ds as hne]
  · intro e l he
    rw [mergeDiff_cons, if_neg (by simp [he])]

theorem c4_merge_runs_witness :
    mergeDiff ([deletedEntry ["a"] [0] 0] ++ [addedEntry ["x"] [0] 0] ++ []) =
      (List.zipWith modifiedOf [deletedEntry ["a"] [0] 0] [addedEntry ["x"] [0] 0] ++
        [deletedEntry ["a"] [0] 0].drop [addedEntry ["x"] [0] 0].length ++
        [addedEntry ["x"] [0] 0].drop [deletedEntry ["a"] [0] 0].length) ++
        mergeDiff [] :=
  (c4_merge_runs [deletedEntry ["a"] [0] 0] [addedEntry ["x"] [0] 0] []
    (by decide) (by decide) (by decide)
    (by intro e he; simp at he) (by intro h e he; simp at he)).1

/-- C5 (code bug): the code has no input-size ceiling and no failure path at
all: for every candidate bound N the engine fully diffs an input of combined
size N + 1, returning one deleted entry per line, instead of failing with the
resource-limit error the specification requires. -/
theorem c5_no_size_limit (N : Nat) :
    (computeLineDiff (List.replicate (N + 1) "a") [] {}).length = N + 1 ∧
    ∀ e ∈ computeLineDiff (List.replicate (N + 1) "a") [] {}, e.type = "deleted" := by
  constructor
  · rw [computeLineDiff_right_nil, List.length_map, List.length_range', List.length_replicate]
  · intro e he
    rw [computeLineDiff_right_nil] at he
    rcases List.mem_map.mp he with ⟨t, ht, rfl⟩
    rfl

/-- C6 (corrected): the emitted patch is the two header lines followed by
`patchTailSpec` of the default-options diff: nothing when every entry is
unchanged, and otherwise a single hunk covering the whole diff from the
first changed entry to the end — its range line reads the first changed
entry's line numbers (falling back to the unchanged-prefix length + 1) and
per-side counts over that entire suffix, whose body keeps interleaved and
trailing unchanged lines as context — not one minimal hunk per changed
run. -/
theorem c6_single_hunk (L R : List String) (a b : String) :
    generateUnifiedPatchLines L R a b =
      ("--- " ++ a) :: ("+++ " ++ b) :: patchTailSpec (computeLineDiff L R {}) :=
  generateUnifiedPatchLines_eq L R a b

theorem c6_single_hunk_cex :
    generateUnifiedPatchLines ["a", "b", "c"] ["x", "b", "y"] "original" "modified" =
      ["--- original", "+++ modified", "@@ -1,3 +1,3 @@", "-a", "+x", " b", "-c", "+y"] ∧
    generateUnifiedPatchLines ["a", "b", "c"] ["x", "b", "y"] "original" "modified" ≠
      ["--- original", "+++ modified", "@@ -1,1 +1,1 @@", "-a", "+x",
        "@@ -3,1 +3,1 @@", "-c", "+y"] :=
  ⟨by decide, by decide⟩

/-- C7: applying the generated patch (standard unified-diff application) to
the left text's lines reproduces the right text's lines exactly. -/
theorem c7_patch_roundtrip (leftText rightText a b : String) :
    applyPatchLines
        (generateUnifiedPatchLines (splitLines leftText) (splitLines rightText) a b)
        (splitLines leftText) = some (splitLines rightText) :=
  patch_roundtrip (splitLines leftText) (splitLines rightText) a b

/-- C8: for every diff entry sequence and side, the heights of the view
zones sum to the number of entries lacking a line number on that side while
having one on the other. -/
theorem c8_zone_sum (diff : List DiffEntry) (side : String) :
    zoneHeightsSum (computeViewZones diff side) = diff.countP (lacksOnSide side) := by
  unfold computeViewZones
  rw [zoneHeightsSum_flush, zones_fold_invariant]
  show zoneHeightsSum [] + 0 + _ = _
  simp [zoneHeightsSum]

/-- C9 (corrected): an empty line list on either side yields the degenerate
diff — every entry added when the left list is empty, every entry deleted
when the right list is empty, one per line of the other side — and no error;
at the text level, however, an empty text splits to a single empty line
rather than to no lines, so the all-added form can fail there: against the
right text "a" the whole diff is one modified entry (the counterexample). -/
theorem c9_empty_lists (L R : List String) :
    (∀ e ∈ computeLineDiff [] R {}, e.type = "added") ∧
    (∀ e ∈ computeLineDiff L [] {}, e.type = "deleted") ∧
    (computeLineDiff [] R {}).length = R.length ∧
    (computeLineDiff L [] {}).length = L.length := by
  refine ⟨?_, ?_, ?_, ?_⟩
  · intro e he
    rw [computeLineDiff_left_nil] at he
    rcases List.mem_map.mp he with ⟨t, ht, rfl⟩
    rfl
  · intro e he
    rw [computeLineDiff_right_nil] at he
    rcases List.mem_map.mp he with ⟨t, ht, rfl⟩
    rfl
  · rw [computeLineDiff_left_nil, List.length_map, List.length_range']
  · rw [computeLineDiff_right_nil, List.length_map, List.length_range']

theorem c9_empty_text_cex :
    computeLineDiff (splitLines "") (splitLines "a") {} =
      [{ type := "modified", leftLine := some "", leftLineNum := some 1,
         rightLine := some "a", rightLineNum := some 1 }] ∧
    (computeLineDiff (splitLines "") (splitLines "a") {}).countP
      (fun e => e.type == "added") = 0 :=
  ⟨by decide, by decide⟩

/-- C10: in the merged output, for every options setting, the non-null
leftLineNum values are strictly increasing in entry order, and so are the
non-null rightLineNum values. -/
theorem c10_increasing_nums (L R : List String) (o : ComparisonOptions) :
    ((computeLineDiff L R o).filterMap (fun e => e.leftLineNum)).Pairwise (· < ·) ∧
    ((computeLineDiff L R o).filterMap (fun e => e.rightLineNum)).Pairwise (· < ·) := by
  rw [computeLineDiff_filterMap_leftNum, computeLineDiff_filterMap_rightNum]
  exact ⟨List.Pairwise.map _ (fun a b h => by omega) (lineMapping_pairwise o L),
    List.Pairwise.map _ (fun a b h => by omega) (lineMapping_pairwise o R)⟩

end Webmerge
